import Mathlib

/-!
# Verification of the zireblog crawler core (`src/crawler/crawl.py`)

This file gives a shallow embedding, in Lean 4, of the parts of
`src/crawler/crawl.py` that the specification's claims are about:

* the URL normalisation pipeline (`_normalize_url`), which is built on
  CPython 3.11's `urllib.parse` (`urldefrag`, `urlparse`, `urlsplit`,
  `urlunparse`, `urlunsplit`, `_splitparams`, `_splitnetloc`);
* the hostname scope filter (`_is_same_hostname`, via the `hostname`
  property of a parse result);
* the filename helpers `_sanitize_component` and
  `_extract_post_number_from_matches`;
* the crawl engine (`crawl`): frontier queue, discovered/visited sets,
  counters, per-iteration behaviour, budget and termination.

Strings are modelled as Lean `String`s, with the character-level work done
on `List Char` (`String.data`).  The Python functions are translated
clause by clause from the CPython 3.11 sources of `urllib/parse.py` and
from `crawl.py`; the doc comment on each definition points at the source
it embeds.  Network fetches, HTML parsing (`BeautifulSoup`) and
`urljoin`-resolution happen outside the embedded core and are modelled as
parameters of the crawl engine (`CrawlConfig.fetch`, `CrawlConfig.extract`),
so every theorem about the engine quantifies over them.

Modelling notes (deviations are conservative and called out in place):
* Python exceptions are modelled with `Option`: a function that can raise
  `ValueError` returns `none` in that case.
* `urlsplit`'s `_check_bracketed_host` (full IPv6/IPvFuture validation) and
  `_checknetloc` (a Unicode-NFKC check that only ever rejects pathological
  non-ASCII netlocs) are modelled as accepting; both only matter for inputs
  no claim touches.
* `str.lower()` is modelled with `Char.toLower` (ASCII lowering).  In every
  place the crawler lowers a string, the string is either ASCII-checked
  beforehand (URL schemes) or a hostname, for which the claims use ASCII
  examples only.
-/

/-! ## Character and list utilities (Python string primitives) -/

/-- Split a list at the first occurrence of the character `c`:
`some (before, after)` with the separator removed, or `none` when `c` does
not occur.  This is the common core of Python's `str.find`/`str.split`/
`str.partition` as used by `urllib.parse`. -/
def splitOnce (c : Char) : List Char → Option (List Char × List Char)
  | [] => none
  | a :: rest =>
    if a = c then some ([], rest)
    else
      match splitOnce c rest with
      | some (pre, post) => some (a :: pre, post)
      | none => none

/-- Split a list at the last occurrence of `c` (Python `str.rfind` /
`str.rpartition`). -/
def splitLast (c : Char) (l : List Char) : Option (List Char × List Char) :=
  match splitOnce c l.reverse with
  | some (rpost, rpre) => some (rpre.reverse, rpost.reverse)
  | none => none

/-- Python `str.lower()`, restricted to ASCII lowering (see the header
note). -/
def lowerL (l : List Char) : List Char := l.map Char.toLower

/-- Python `value.rstrip("/")`: remove every trailing `'/'`. -/
def rstripSlashes (l : List Char) : List Char :=
  (l.reverse.dropWhile (fun c => c == '/')).reverse

/-- Python `value.strip("_")`: remove every leading and trailing `'_'`. -/
def stripUnderscores (l : List Char) : List Char :=
  ((l.dropWhile (fun c => c == '_')).reverse.dropWhile (fun c => c == '_')).reverse

/-- The characters `urlsplit` deletes from its input
(`_UNSAFE_URL_BYTES_TO_REMOVE = ["\t", "\r", "\n"]`): `goodChar c` holds
when `c` survives. -/
def goodChar (c : Char) : Bool := !(c == '\t' || c == '\r' || c == '\n')

/-- Membership in `_WHATWG_C0_CONTROL_OR_SPACE`, the set `urlsplit`
left-strips: C0 control characters and the space, i.e. code points `≤ 0x20`. -/
def isC0OrSpace (c : Char) : Bool := c.toNat ≤ 32

/-! ## `urllib.parse` (CPython 3.11) -/

/-- Result of `urlsplit`: `SplitResult(scheme, netloc, path, query, fragment)`. -/
structure SplitResult where
  scheme : List Char
  netloc : List Char
  path : List Char
  query : List Char
  fragment : List Char
deriving DecidableEq, Repr

/-- Result of `urlparse`:
`ParseResult(scheme, netloc, path, params, query, fragment)`. -/
structure ParseResult where
  scheme : List Char
  netloc : List Char
  path : List Char
  params : List Char
  query : List Char
  fragment : List Char
deriving DecidableEq, Repr

/-- Membership in `scheme_chars`
(`letters + digits + '+-.'`). -/
def isSchemeChar (c : Char) : Bool :=
  c.isAlpha || c.isDigit || c == '+' || c == '-' || c == '.'

/-- The scheme-detaching step of `urlsplit`:
```
i = url.find(':')
if i > 0 and url[0].isascii() and url[0].isalpha():
    for c in url[:i]:
        if c not in scheme_chars:
            break
    else:
        scheme, url = url[:i].lower(), url[i+1:]
```
(`Char.isAlpha` is exactly Python's `isascii() and isalpha()`.) -/
def schemeSplit (url : List Char) : List Char × List Char :=
  match splitOnce ':' url with
  | some (b :: bs, after) =>
    if b.isAlpha && (b :: bs).all isSchemeChar then (lowerL (b :: bs), after)
    else ([], url)
  | _ => ([], url)

/-- A netloc delimiter, as scanned for by `_splitnetloc` (`for c in '/?#'`). -/
def isNetlocDelim (c : Char) : Bool := c == '/' || c == '?' || c == '#'

/-- `_splitnetloc(url, 2)` preceded by the `url[:2] == '//'` test of
`urlsplit`: when the remaining url starts with `//`, the netloc is
everything up to the first of `/?#`, otherwise it is empty. -/
def netlocSplit (url : List Char) : List Char × List Char :=
  if url.take 2 = ['/', '/'] then
    ((url.drop 2).takeWhile (fun c => !isNetlocDelim c),
     (url.drop 2).dropWhile (fun c => !isNetlocDelim c))
  else ([], url)

/-- The fragment split of `urlsplit`
(`if allow_fragments and '#' in url: url, fragment = url.split('#', 1)`). -/
def fragSplit (u : List Char) : List Char × List Char :=
  match splitOnce '#' u with
  | some (a, b) => (a, b)
  | none => (u, [])

/-- The query split of `urlsplit`
(`if '?' in url: url, query = url.split('?', 1)`). -/
def querySplit (u : List Char) : List Char × List Char :=
  match splitOnce '?' u with
  | some (a, b) => (a, b)
  | none => (u, [])

/-- `urlsplit(url)` for `scheme=''`, `allow_fragments=True` (CPython 3.11).
`none` models the `ValueError` raised for a netloc containing `[` without
`]` or vice versa.  `_check_bracketed_host` and `_checknetloc` are modelled
as accepting (header note). -/
def urlsplitL (url0 : List Char) : Option SplitResult :=
  let url := (url0.dropWhile isC0OrSpace).filter goodChar
  let sp := schemeSplit url
  let nl := netlocSplit sp.2
  if ('[' ∈ nl.1) ≠ (']' ∈ nl.1) then none
  else
    let fr := fragSplit nl.2
    let pq := querySplit fr.1
    some ⟨sp.1, nl.1, pq.1, pq.2, fr.2⟩

/-- `uses_params` (CPython 3.11). -/
def usesParams : List (List Char) :=
  ["", "ftp", "hdl", "prospero", "http", "imap", "https", "shttp", "rtsp",
   "rtsps", "rtspu", "sip", "sips", "mms", "sftp", "tel"].map String.data

/-- `uses_netloc` (CPython 3.11). -/
def usesNetloc : List (List Char) :=
  ["", "ftp", "http", "gopher", "nntp", "telnet", "imap", "wais", "file",
   "mms", "https", "shttp", "snews", "prospero", "rtsp", "rtsps", "rtspu",
   "rsync", "svn", "svn+ssh", "sftp", "nfs", "git", "git+ssh", "ws",
   "wss"].map String.data

/-- `_splitparams(url)`:
```
if '/' in url:
    i = url.find(';', url.rfind('/'))
    if i < 0:
        return url, ''
else:
    i = url.find(';')
return url[:i], url[i+1:]
```
Searching for `';'` from the index of the last `'/'` finds the first `';'`
inside the final path segment (the character at that index is `'/'` itself). -/
def splitparamsL (url : List Char) : List Char × List Char :=
  if '/' ∈ url then
    match splitLast '/' url with
    | some (pre, seg) =>
      match splitOnce ';' seg with
      | some (a, b) => (pre ++ '/' :: a, b)
      | none => (url, [])
    | none => (url, [])
  else
    match splitOnce ';' url with
    | some (a, b) => (a, b)
    | none => (url, [])

/-- `urlparse(url)`: `urlsplit` followed by the params split for schemes in
`uses_params`. -/
def urlparseL (url : List Char) : Option ParseResult :=
  (urlsplitL url).map fun s =>
    if s.scheme ∈ usesParams ∧ ';' ∈ s.path then
      let pp := splitparamsL s.path
      ⟨s.scheme, s.netloc, pp.1, pp.2, s.query, s.fragment⟩
    else ⟨s.scheme, s.netloc, s.path, [], s.query, s.fragment⟩

/-- `urlunsplit((scheme, netloc, url, query, fragment))` (CPython 3.11):
```
if netloc or (scheme and scheme in uses_netloc and url[:2] != '//'):
    if url and url[:1] != '/': url = '/' + url
    url = '//' + (netloc or '') + url
if scheme: url = scheme + ':' + url
if query: url = url + '?' + query
if fragment: url = url + '#' + fragment
``` -/
def urlunsplitL (scheme netloc url query fragment : List Char) : List Char :=
  let url :=
    if netloc ≠ [] ∨ (scheme ≠ [] ∧ scheme ∈ usesNetloc ∧ url.take 2 ≠ ['/', '/']) then
      let url := if url ≠ [] ∧ url.take 1 ≠ ['/'] then '/' :: url else url
      '/' :: '/' :: (netloc ++ url)
    else url
  let url := if scheme ≠ [] then scheme ++ ':' :: url else url
  let url := if query ≠ [] then url ++ '?' :: query else url
  if fragment ≠ [] then url ++ '#' :: fragment else url

/-- `urlunparse`: re-attach params with `';'` and delegate to `urlunsplit`.
`ParseResult.geturl()` is `urlunparse` on the result's components. -/
def urlunparseL (scheme netloc url params query fragment : List Char) : List Char :=
  if params ≠ [] then urlunsplitL scheme netloc (url ++ ';' :: params) query fragment
  else urlunsplitL scheme netloc url query fragment

/-- `urldefrag(url)` (the defragmented URL only): when the input contains
`'#'` it is parsed and re-serialised with an empty fragment, otherwise it is
returned unchanged.  `none` models a `ValueError` escaping from `urlparse`. -/
def urldefragL (url : List Char) : Option (List Char) :=
  if '#' ∈ url then
    (urlparseL url).map fun p =>
      urlunparseL p.scheme p.netloc p.path p.params p.query []
  else some url

/-! ## `crawl.py`: URL normalisation and scope filter -/

/-- The list of http schemes accepted by `_normalize_url`
(`parsed.scheme not in {"http", "https"}`). -/
def httpSchemes : List (List Char) := ["http", "https"].map String.data

/-- The path rewriting of `_normalize_url` (crawl.py lines 49-51):
```
path = parsed.path or "/"
if path != "/" and path.endswith("/"):
    path = path.rstrip("/")
``` -/
def pyNormPath (p : List Char) : List Char :=
  let p1 := if p = [] then ['/'] else p
  if p1 ≠ ['/'] ∧ p1.getLast? = some '/' then rstripSlashes p1 else p1

/-- The parsing front half of `_normalize_url`:
`cleaned, _ = urldefrag(raw)` followed by `parsed = urlparse(cleaned)`.
`none` models a `ValueError` escaping either call. -/
def normParsed (raw : String) : Option ParseResult :=
  (urldefragL raw.data).bind urlparseL

/-- `_normalize_url(raw)` (crawl.py lines 44-53).  The outer `Option` models
an escaping `ValueError`; the inner one is the function's own
`str | None` result:
```
cleaned, _ = urldefrag(raw)
parsed = urlparse(cleaned)
if parsed.scheme not in {"http", "https"}:
    return None
path = parsed.path or "/"
if path != "/" and path.endswith("/"):
    path = path.rstrip("/")
normalized = parsed._replace(path=path, params="", fragment="").geturl()
return normalized
``` -/
def normalize_url (raw : String) : Option (Option String) :=
  match normParsed raw with
  | none => none
  | some p =>
    if p.scheme ∈ httpSchemes then
      some (some (String.mk (urlunparseL p.scheme p.netloc (pyNormPath p.path) [] p.query [])))
    else some none

/-- The `hostname` property of a parse result (CPython 3.11,
`_NetlocResultMixinBase.hostname` over `_hostinfo`): the part of the netloc
after the last `'@'`, then either the bracketed host or the part before the
first `':'`; `none` when empty, otherwise lowercased with any `'%'`-zone
suffix preserved unlowered. -/
def hostnameOf (netloc : List Char) : Option (List Char) :=
  let hostinfo :=
    match splitLast '@' netloc with
    | some (_, after) => after
    | none => netloc
  let hostport :=
    match splitOnce '[' hostinfo with
    | some (_, bracketed) =>
      match splitOnce ']' bracketed with
      | some (h, _) => h
      | none => bracketed
    | none =>
      match splitOnce ':' hostinfo with
      | some (h, _) => h
      | none => hostinfo
  if hostport = [] then none
  else
    match splitOnce '%' hostport with
    | some (h, z) => some (lowerL h ++ '%' :: z)
    | none => some (lowerL hostport)

/-- `_is_same_hostname(url, hostname)` (crawl.py lines 64-67):
```
parsed = urlparse(url)
candidate_hostname = parsed.hostname
return bool(candidate_hostname and candidate_hostname.lower() == hostname)
```
A `ValueError` from `urlparse` is modelled as `false`; in the crawler this
function is only applied to outputs of `_normalize_url`, which re-parse
without error. -/
def is_same_hostname (url : String) (hostname : String) : Bool :=
  match urlparseL url.data with
  | none => false
  | some p =>
    match hostnameOf p.netloc with
    | none => false
    | some h => lowerL h = hostname.data

/-- `_hostname_from_url(raw)` (crawl.py lines 56-61): the lowercased
hostname of the parsed URL; `none` models the `RuntimeError` raised when
there is no hostname (or a `ValueError` from `urlparse`). -/
def hostname_from_url (raw : String) : Option String :=
  match urlparseL raw.data with
  | none => none
  | some p =>
    match hostnameOf p.netloc with
    | none => none
    | some h => some (String.mk (lowerL h))

/-! ## `crawl.py`: filename helpers -/

/-- The character class `[A-Za-z0-9_-]` of `_sanitize_component`. -/
def isFsSafeChar (c : Char) : Bool :=
  c.isAlpha || c.isDigit || c == '_' || c == '-'

/-- `_sanitize_component(value)` (crawl.py lines 70-72):
```
sanitized = re.sub(r"[^A-Za-z0-9_-]", "_", value)
return sanitized.strip("_") or "segment"
``` -/
def sanitize_component (value : String) : String :=
  let sanitized := value.data.map fun c => if isFsSafeChar c then c else '_'
  let stripped := stripUnderscores sanitized
  if stripped = [] then "segment" else String.mk stripped

/-- The code-point ranges of the Unicode general category `Nd` (decimal
digits), Unicode 14.0 as shipped with CPython 3.11.  Python's regex `\d`
on a `str` matches exactly these characters. -/
def ndRanges : List (Nat × Nat) :=
  [(0x30, 0x39), (0x660, 0x669), (0x6F0, 0x6F9), (0x7C0, 0x7C9),
   (0x966, 0x96F), (0x9E6, 0x9EF), (0xA66, 0xA6F), (0xAE6, 0xAEF),
   (0xB66, 0xB6F), (0xBE6, 0xBEF), (0xC66, 0xC6F), (0xCE6, 0xCEF),
   (0xD66, 0xD6F), (0xDE6, 0xDEF), (0xE50, 0xE59), (0xED0, 0xED9),
   (0xF20, 0xF29), (0x1040, 0x1049), (0x1090, 0x1099), (0x17E0, 0x17E9),
   (0x1810, 0x1819), (0x1946, 0x194F), (0x19D0, 0x19D9), (0x1A80, 0x1A89),
   (0x1A90, 0x1A99), (0x1B50, 0x1B59), (0x1BB0, 0x1BB9), (0x1C40, 0x1C49),
   (0x1C50, 0x1C59), (0xA620, 0xA629), (0xA8D0, 0xA8D9), (0xA900, 0xA909),
   (0xA9D0, 0xA9D9), (0xA9F0, 0xA9F9), (0xAA50, 0xAA59), (0xABF0, 0xABF9),
   (0xFF10, 0xFF19), (0x104A0, 0x104A9), (0x10D30, 0x10D39),
   (0x11066, 0x1106F), (0x110F0, 0x110F9), (0x11136, 0x1113F),
   (0x111D0, 0x111D9), (0x112F0, 0x112F9), (0x11450, 0x11459),
   (0x114D0, 0x114D9), (0x11650, 0x11659), (0x116C0, 0x116C9),
   (0x11730, 0x11739), (0x118E0, 0x118E9), (0x11950, 0x11959),
   (0x11C50, 0x11C59), (0x11D50, 0x11D59), (0x11DA0, 0x11DA9),
   (0x16A60, 0x16A69), (0x16AC0, 0x16AC9), (0x16B50, 0x16B59),
   (0x1D7CE, 0x1D7FF), (0x1E140, 0x1E149), (0x1E2F0, 0x1E2F9),
   (0x1E950, 0x1E959), (0x1FBF0, 0x1FBF9)]

/-- A character matched by Python's `\d` on `str` (any Unicode decimal
digit, category `Nd`). -/
def isPyDigit (c : Char) : Bool :=
  ndRanges.any fun r => r.1 ≤ c.toNat && c.toNat ≤ r.2

/-- `re.search(r"\d+", s)`: the leftmost maximal run of `\d`-characters,
or `none` when `s` contains none. -/
def firstDigitRun : List Char → Option (List Char)
  | [] => none
  | c :: rest =>
    if isPyDigit c then some (c :: rest.takeWhile isPyDigit)
    else firstDigitRun rest

/-- `_extract_post_number_from_matches(matches)` (crawl.py lines 97-102):
```
for match in matches:
    number_match = re.search(r"\d+", match)
    if number_match:
        return number_match.group(0)
return None
``` -/
def extract_post_number_from_matches : List String → Option String
  | [] => none
  | m :: rest =>
    match firstDigitRun m.data with
    | some r => some (String.mk r)
    | none => extract_post_number_from_matches rest

/-! ## `crawl.py`: the crawl engine

The engine's environment is a `CrawlConfig`: the compiled match pattern is
modelled by the function `matcher` (the list
`[m.group(0) for m in matcher.finditer(url)]`), the network by `fetch`
(`none` is a `RequestException`, including a non-success status raised by
`raise_for_status`; `some body` is `response.text`), and
`_extract_links(html, base_url)` by `extract` (the finite list the
generator yields: normalised, absolute candidate URLs in document order).

The state carries, besides the queue and the discovered/visited sets, three
ghost histories: `processedL` and `savedL` record, in order, the URLs for
which `processed += 1` ran and for which a page was saved and a MatchRecord
appended (`saved += 1`); `enqueuedL` records every URL ever put on the
queue, the seed included.  The counters of the source are the lengths of
the first two; the ghost lists only ever grow by the same appends that
bump the counters. -/

/-- Environment of one `crawl(...)` run. -/
structure CrawlConfig where
  matcher : String → List String
  fetch : String → Option String
  extract : String → String → List String
  host : String
  maxPages : Nat

/-- Mutable state of the crawl loop (crawl.py lines 156-160), plus ghost
histories (see above). -/
structure CrawlState where
  queue : List String
  discovered : List String
  visited : List String
  processedL : List String
  savedL : List String
  enqueuedL : List String
deriving DecidableEq, Repr

/-- `pagesProcessed`: the `processed` counter. -/
def CrawlState.processed (s : CrawlState) : Nat := s.processedL.length

/-- `pagesSaved`: the `saved` counter. -/
def CrawlState.saved (s : CrawlState) : Nat := s.savedL.length

/-- The link-discovery loop of one iteration (crawl.py lines 195-202):
```
for candidate in _extract_links(response.text, current):
    if _is_same_hostname(candidate, allowed_hostname):
        if candidate in discovered:
            continue
        discovered.add(candidate)
        queue.append(candidate)
```
Returns the updated `(discovered, queue, enqueued-history)` triple. -/
def enqueueLinks (host : String) :
    List String → List String → List String → List String →
    List String × List String × List String
  | [], disc, queue, enq => (disc, queue, enq)
  | c :: cs, disc, queue, enq =>
    if is_same_hostname c host = true ∧ c ∉ disc then
      enqueueLinks host cs (c :: disc) (queue ++ [c]) (enq ++ [c])
    else enqueueLinks host cs disc queue enq

/-- One iteration of the crawl loop after popping `current = c` (crawl.py
lines 173-210): skip if visited; on fetch failure mark visited and move on;
on success bump `processed`, save when the URL matches, enqueue unseen
in-scope links, mark visited. -/
def crawlStep (cfg : CrawlConfig) (c : String) (rest : List String)
    (s : CrawlState) : CrawlState :=
  if c ∈ s.visited then { s with queue := rest }
  else
    match cfg.fetch c with
    | none => { s with queue := rest, visited := c :: s.visited }
    | some body =>
      let r := enqueueLinks cfg.host (cfg.extract body c) s.discovered rest s.enqueuedL
      { queue := r.2.1
        discovered := r.1
        visited := c :: s.visited
        processedL := s.processedL ++ [c]
        savedL := if cfg.matcher c = [] then s.savedL else s.savedL ++ [c]
        enqueuedL := r.2.2 }

/-- The crawl loop (crawl.py line 172):
`while queue and (max_pages == 0 or processed < max_pages)`, with an
explicit fuel so the function is total; `crawlLoop fuel` runs at most
`fuel` iterations.  A state whose queue is empty, or whose budget is
exhausted, is a fixed point. -/
def crawlLoop (cfg : CrawlConfig) : Nat → CrawlState → CrawlState
  | 0, s => s
  | fuel + 1, s =>
    match s.queue with
    | [] => s
    | c :: rest =>
      if cfg.maxPages ≠ 0 ∧ cfg.maxPages ≤ s.processed then s
      else crawlLoop cfg fuel (crawlStep cfg c rest s)

/-- The initial state of `crawl(prefix, ...)` (crawl.py lines 156-160):
`queue = deque([prefix])`, `discovered = {prefix}`, `visited = set()`,
counters zero; the seed counts as enqueued. -/
def initState (seed : String) : CrawlState :=
  ⟨[seed], [seed], [], [], [], [seed]⟩

/-- `crawl`'s return value `(processed, saved)` after running with the
given fuel. -/
def crawl (cfg : CrawlConfig) (seed : String) (fuel : Nat) : Nat × Nat :=
  let s := crawlLoop cfg fuel (initState seed)
  (s.processed, s.saved)

/-! ## Utility lemmas -/

theorem splitOnce_eq_none_of_not_mem (c : Char) :
    ∀ l : List Char, c ∉ l → splitOnce c l = none := by
  intro l h
  induction l with
  | nil => rfl
  | cons a rest ih =>
    have hac : ¬ a = c := fun hc => h (hc ▸ List.mem_cons_self a rest)
    have hrest : c ∉ rest := fun hr => h (List.mem_cons_of_mem a hr)
    simp [splitOnce, hac, ih hrest]

theorem splitOnce_append_of_not_mem (c : Char) (l₁ l₂ : List Char) (h : c ∉ l₁) :
    splitOnce c (l₁ ++ c :: l₂) = some (l₁, l₂) := by
  induction l₁ with
  | nil => simp [splitOnce]
  | cons a rest ih =>
    have hac : ¬ a = c := fun hc => h (hc ▸ List.mem_cons_self a rest)
    have hrest : c ∉ rest := fun hr => h (List.mem_cons_of_mem a hr)
    simp [splitOnce, hac, ih hrest]

theorem splitOnce_eq_some (c : Char) :
    ∀ l a b, splitOnce c l = some (a, b) → l = a ++ c :: b ∧ c ∉ a := by
  intro l
  induction l with
  | nil => intro a b h; simp [splitOnce] at h
  | cons x rest ih =>
    intro a b h
    by_cases hx : x = c
    · simp [splitOnce, hx] at h
      obtain ⟨ha, hb⟩ := h
      subst ha; subst hb; subst hx
      exact ⟨rfl, List.not_mem_nil _⟩
    · simp only [splitOnce, if_neg hx] at h
      cases hr : splitOnce c rest with
      | none => rw [hr] at h; simp at h
      | some pr =>
        rw [hr] at h
        obtain ⟨pre, post⟩ := pr
        simp at h
        obtain ⟨ha, hb⟩ := h
        obtain ⟨hl, hnm⟩ := ih pre post hr
        subst ha; subst hb
        refine ⟨by simp [hl], ?_⟩
        intro hmem
        rcases List.mem_cons.mp hmem with h1 | h2
        · exact hx h1.symm
        · exact hnm h2


theorem splitOnce_mem_of_eq_none (c : Char) :
    ∀ l : List Char, splitOnce c l = none → c ∉ l := by
  intro l
  induction l with
  | nil => intro _; exact List.not_mem_nil c
  | cons x rest ih =>
    intro h
    by_cases hx : x = c
    · simp [splitOnce, hx] at h
    · simp only [splitOnce, if_neg hx] at h
      cases hr : splitOnce c rest with
      | none =>
        intro hmem
        rcases List.mem_cons.mp hmem with h1 | h2
        · exact hx h1.symm
        · exact ih hr h2
      | some pr =>
        rw [hr] at h
        obtain ⟨a, b⟩ := pr
        simp at h

theorem dropWhile_head_cases (p : Char → Bool) (l : List Char) :
    l.dropWhile p = [] ∨
      ∃ a t, l.dropWhile p = a :: t ∧ p a = false := by
  induction l with
  | nil => exact Or.inl rfl
  | cons x rest ih =>
    by_cases hx : p x = true
    · simpa [List.dropWhile, hx] using ih
    · refine Or.inr ⟨x, rest, ?_, by simpa using hx⟩
      simp [List.dropWhile, hx]

theorem getLast?_dropWhile (p : Char → Bool) (l : List Char) :
    l.dropWhile p = [] ∨ (l.dropWhile p).getLast? = l.getLast? := by
  induction l with
  | nil => exact Or.inl rfl
  | cons x rest ih =>
    by_cases hx : p x = true
    · by_cases hnil : rest.dropWhile p = []
      · rw [List.dropWhile_cons_of_pos hx]
        exact Or.inl hnil
      · rcases ih with h | h
        · exact absurd h hnil
        · rw [List.dropWhile_cons_of_pos hx]
          refine Or.inr ?_
          rw [h]
          cases rest with
          | nil => simp [List.dropWhile] at hnil
          | cons y ys => rw [List.getLast?_cons_cons]
    · rw [List.dropWhile_cons_of_neg hx]
      exact Or.inr rfl

theorem mem_of_mem_dropWhile (p : Char → Bool) {x : Char} {l : List Char}
    (h : x ∈ l.dropWhile p) : x ∈ l :=
  (List.dropWhile_sublist (p := p) (l := l)).subset h

theorem stripUnderscores_mem (l : List Char) :
    ∀ x ∈ stripUnderscores l, x ∈ l := by
  intro x hx
  unfold stripUnderscores at hx
  have h1 := List.mem_reverse.mp hx
  have h2 := List.mem_reverse.mp (mem_of_mem_dropWhile _ h1)
  exact mem_of_mem_dropWhile _ h2

theorem stripUnderscores_ends (l : List Char) :
    stripUnderscores l = [] ∨
      ((stripUnderscores l).head? ≠ some '_' ∧
        (stripUnderscores l).getLast? ≠ some '_') := by
  unfold stripUnderscores
  set q : Char → Bool := fun c => c == '_' with hq
  set A := l.dropWhile q with hA
  set B := A.reverse.dropWhile q with hB
  by_cases hBnil : B = []
  · exact Or.inl (by simp [hBnil])
  · refine Or.inr ⟨?_, ?_⟩
    · -- the head of B.reverse is the last of B; B is a suffix of A.reverse,
      -- so its last element is the last of A.reverse, i.e. the head of A,
      -- and dropWhile guarantees that head is not '_'
      rw [List.head?_reverse]
      rcases getLast?_dropWhile q A.reverse with h | h
      · exact absurd h hBnil
      · rw [hB, h, List.getLast?_reverse]
        rcases dropWhile_head_cases q l with h0 | ⟨a, t, h0, hp⟩
        · rw [hA, h0]
          simp
        · rw [hA, h0]
          simp only [List.head?_cons, ne_eq, Option.some.injEq]
          intro hcontra
          rw [hcontra] at hp
          simp [hq] at hp
    · rw [List.getLast?_reverse]
      rcases dropWhile_head_cases q A.reverse with h0 | ⟨a, t, h0, hp⟩
      · exact absurd (hB.trans h0) hBnil
      · rw [hB, h0]
        simp only [List.head?_cons, ne_eq, Option.some.injEq]
        intro hcontra
        rw [hcontra] at hp
        simp [hq] at hp

/-! ## Claim C10: `_sanitize_component` output shape -/

/-- C10: for every input string, `_sanitize_component` returns a non-empty
string consisting solely of characters from `[A-Za-z0-9_-]`, with no
leading or trailing underscore, and falls back to the literal `"segment"`
exactly when stripping leaves nothing. -/
theorem sanitize_component_spec (value : String) :
    sanitize_component value ≠ "" ∧
    (∀ c ∈ (sanitize_component value).data, isFsSafeChar c = true) ∧
    (sanitize_component value).data.head? ≠ some '_' ∧
    (sanitize_component value).data.getLast? ≠ some '_' ∧
    (stripUnderscores (value.data.map fun c => if isFsSafeChar c then c else '_') = [] →
      sanitize_component value = "segment") := by
  unfold sanitize_component
  by_cases hst :
      stripUnderscores (value.data.map fun c => if isFsSafeChar c then c else '_') = []
  · rw [if_pos hst]
    refine ⟨by decide, by decide, by decide, by decide, fun _ => rfl⟩
  · rw [if_neg hst]
    refine ⟨?_, ?_, ?_, ?_, fun h => absurd h hst⟩
    · intro h
      exact hst (congrArg String.data h)
    · intro c hc
      have hc' := stripUnderscores_mem _ c hc
      obtain ⟨x, _, hx⟩ := List.mem_map.mp hc'
      by_cases hsafe : isFsSafeChar x = true
      · rw [if_pos hsafe] at hx
        rw [← hx]; exact hsafe
      · rw [if_neg hsafe] at hx
        rw [← hx]; decide
    · rcases stripUnderscores_ends
        (value.data.map fun c => if isFsSafeChar c then c else '_') with h | ⟨h1, _⟩
      · exact absurd h hst
      · exact h1
    · rcases stripUnderscores_ends
        (value.data.map fun c => if isFsSafeChar c then c else '_') with h | ⟨_, h2⟩
      · exact absurd h hst
      · exact h2

/-- Witness for C10 at concrete inputs, exercising also the
`"segment"` fallback branch. -/
theorem sanitize_component_spec_witness :
    sanitize_component "a.b/c" ≠ "" ∧
    sanitize_component "!!" = "segment" := by
  refine ⟨(sanitize_component_spec "a.b/c").1, ?_⟩
  exact (sanitize_component_spec "!!").2.2.2.2 (by decide)

/-! ## Claim C8: `_extract_post_number_from_matches` -/

theorem firstDigitRun_eq_none (l : List Char) (h : firstDigitRun l = none) :
    ∀ c ∈ l, isPyDigit c = false := by
  induction l with
  | nil => intro c hc; exact absurd hc (List.not_mem_nil c)
  | cons x rest ih =>
    intro c hc
    by_cases hx : isPyDigit x = true
    · simp [firstDigitRun, hx] at h
    · simp only [firstDigitRun, if_neg hx] at h
      rcases List.mem_cons.mp hc with h1 | h2
      · rw [h1]; simpa using hx
      · exact ih h c h2

theorem firstDigitRun_eq_some (l r : List Char) (h : firstDigitRun l = some r) :
    ∃ a b, l = a ++ r ++ b ∧ (∀ c ∈ a, isPyDigit c = false) ∧ r ≠ [] ∧
      (∀ c ∈ r, isPyDigit c = true) ∧
      (b = [] ∨ ∃ d t, b = d :: t ∧ isPyDigit d = false) := by
  induction l generalizing r with
  | nil => simp [firstDigitRun] at h
  | cons x rest ih =>
    by_cases hx : isPyDigit x = true
    · simp only [firstDigitRun, if_pos hx, Option.some.injEq] at h
      refine ⟨[], rest.dropWhile isPyDigit, ?_, ?_, ?_, ?_, ?_⟩
      · rw [← h]
        simp [List.takeWhile_append_dropWhile]
      · intro c hc; exact absurd hc (List.not_mem_nil c)
      · rw [← h]; simp
      · intro c hc
        rw [← h] at hc
        rcases List.mem_cons.mp hc with h1 | h2
        · rw [h1]; exact hx
        · exact List.mem_takeWhile_imp h2
      · rcases dropWhile_head_cases isPyDigit rest with h0 | ⟨a, t, h0, hp⟩
        · exact Or.inl h0
        · exact Or.inr ⟨a, t, h0, hp⟩
    · simp only [firstDigitRun, if_neg hx] at h
      obtain ⟨a, b, hl, ha, hr, hdig, hb⟩ := ih r h
      refine ⟨x :: a, b, by simp [hl], ?_, hr, hdig, hb⟩
      intro c hc
      rcases List.mem_cons.mp hc with h1 | h2
      · rw [h1]; simpa using hx
      · exact ha c h2

/-- C8 (amended): `extractLeadingNumber` scans the match strings in order
and returns the first maximal run of Unicode decimal digits (category `Nd`,
which `\d` matches and which includes `0-9`) found inside any match, or
absent when no match contains such a digit.  The result `r` sits inside
the first match `m` that contains a digit, preceded by digit-free
characters and followed by a character that is not a digit (maximality),
and all earlier matches are digit-free. -/
theorem extract_post_number_spec (ms : List String) :
    (extract_post_number_from_matches ms = none →
      ∀ m ∈ ms, ∀ c ∈ m.data, isPyDigit c = false) ∧
    (∀ r, extract_post_number_from_matches ms = some r →
      ∃ ms₁ m ms₂, ms = ms₁ ++ m :: ms₂ ∧
        (∀ m' ∈ ms₁, ∀ c ∈ m'.data, isPyDigit c = false) ∧
        ∃ a b, m.data = a ++ r.data ++ b ∧ (∀ c ∈ a, isPyDigit c = false) ∧
          r.data ≠ [] ∧ (∀ c ∈ r.data, isPyDigit c = true) ∧
          (b = [] ∨ ∃ d t, b = d :: t ∧ isPyDigit d = false)) := by
  induction ms with
  | nil =>
    constructor
    · intro _ m hm; exact absurd hm (List.not_mem_nil m)
    · intro r hr; simp [extract_post_number_from_matches] at hr
  | cons m rest ih =>
    cases hm : firstDigitRun m.data with
    | some r0 =>
      constructor
      · intro h
        simp [extract_post_number_from_matches, hm] at h
      · intro r hr
        simp only [extract_post_number_from_matches, hm, Option.some.injEq] at hr
        refine ⟨[], m, rest, by simp, ?_, ?_⟩
        · intro m' hm'; exact absurd hm' (List.not_mem_nil m')
        · have hrd : r.data = r0 := by rw [← hr]
          rw [hrd]
          exact firstDigitRun_eq_some m.data r0 hm
    | none =>
      constructor
      · intro h m' hm'
        have hrest : extract_post_number_from_matches rest = none := by
          simpa [extract_post_number_from_matches, hm] using h
        rcases List.mem_cons.mp hm' with h1 | h2
        · rw [h1]; exact firstDigitRun_eq_none m.data hm
        · exact ih.1 hrest m' h2
      · intro r hr
        have hrest : extract_post_number_from_matches (m :: rest) =
            extract_post_number_from_matches rest := by
          simp [extract_post_number_from_matches, hm]
        rw [hrest] at hr
        obtain ⟨ms₁, m', ms₂, hms, hfree, rest'⟩ := ih.2 r hr
        refine ⟨m :: ms₁, m', ms₂, by simp [hms], ?_, rest'⟩
        intro m'' hm''
        rcases List.mem_cons.mp hm'' with h1 | h2
        · rw [h1]; exact firstDigitRun_eq_none m.data hm
        · exact hfree m'' h2

/-- Counterexample to C8 as stated: `U+0663 ARABIC-INDIC DIGIT THREE` is
not an ASCII digit, so on the match list `["p٣"]` the claim demands the
absent result; the code's `\d` regex matches any Unicode decimal digit
and returns `"٣"`. -/
theorem extract_post_number_ascii_counterexample :
    extract_post_number_from_matches ["p٣"] = some "٣" ∧
    ("p٣" : String).data.all (fun c => !c.isDigit) = true := by
  constructor
  · rfl
  · decide

/-- Witness for C8: the amended theorem applied to a concrete match list. -/
theorem extract_post_number_spec_witness :
    extract_post_number_from_matches ["ab", "x42y"] = some "42" ∧
    (∃ ms₁ m ms₂, (["ab", "x42y"] : List String) = ms₁ ++ m :: ms₂ ∧
      (∀ m' ∈ ms₁, ∀ c ∈ m'.data, isPyDigit c = false) ∧
      ∃ a b, m.data = a ++ ("42" : String).data ++ b ∧
        (∀ c ∈ a, isPyDigit c = false) ∧
        ("42" : String).data ≠ [] ∧ (∀ c ∈ ("42" : String).data, isPyDigit c = true) ∧
        (b = [] ∨ ∃ d t, b = d :: t ∧ isPyDigit d = false)) := by
  refine ⟨rfl, (extract_post_number_spec ["ab", "x42y"]).2 "42" rfl⟩

/-! ## Claim C7: the path rewriting of `_normalize_url` -/

/-- C7 (amended): in URL normalisation an empty parsed path becomes `/`;
a path that is not exactly `/` and ends in `/` has ALL of its trailing
slashes stripped (Python `rstrip("/")`), not just one: the result no
longer ends in `/` and the input is the result followed by one or more
slashes. -/
theorem pyNormPath_spec :
    pyNormPath [] = ['/'] ∧
    ∀ p : List Char, p ≠ ['/'] → p.getLast? = some '/' →
      (pyNormPath p).getLast? ≠ some '/' ∧
      ∃ n, 0 < n ∧ p = pyNormPath p ++ List.replicate n '/' := by
  refine ⟨by decide, ?_⟩
  intro p hne hlast
  have hpnil : p ≠ [] := by
    intro h; rw [h] at hlast; simp at hlast
  have hpy : pyNormPath p = rstripSlashes p := by
    unfold pyNormPath
    rw [if_neg hpnil, if_pos ⟨hne, hlast⟩]
  set q : Char → Bool := fun c => c == '/' with hq
  have hsplit : p = rstripSlashes p ++ (p.reverse.takeWhile q).reverse := by
    unfold rstripSlashes
    rw [hq]
    calc p = p.reverse.reverse := (List.reverse_reverse p).symm
    _ = ((p.reverse.takeWhile q) ++ (p.reverse.dropWhile q)).reverse := by
          rw [List.takeWhile_append_dropWhile]
    _ = (p.reverse.dropWhile q).reverse ++ (p.reverse.takeWhile q).reverse := by
          rw [List.reverse_append]
  have hrep : (p.reverse.takeWhile q).reverse =
      List.replicate (p.reverse.takeWhile q).length '/' := by
    have hall : ∀ b ∈ (p.reverse.takeWhile q).reverse, b = '/' := by
      intro b hb
      have := List.mem_takeWhile_imp (List.mem_reverse.mp hb)
      rw [hq] at this
      exact eq_of_beq this
    calc (p.reverse.takeWhile q).reverse
        = List.replicate (p.reverse.takeWhile q).reverse.length '/' :=
          List.eq_replicate_of_mem hall
    _ = List.replicate (p.reverse.takeWhile q).length '/' := by rw [List.length_reverse]
  have hTpos : 0 < (p.reverse.takeWhile q).length := by
    have hh : p.reverse.head? = some '/' := by
      rw [List.head?_reverse]; exact hlast
    cases hrev : p.reverse with
    | nil => rw [hrev] at hh; simp at hh
    | cons a t =>
      rw [hrev] at hh
      simp only [List.head?_cons, Option.some.injEq] at hh
      have : q a = true := by rw [hq, hh]; simp
      rw [List.takeWhile_cons_of_pos this]
      simp
  constructor
  · rw [hpy]
    unfold rstripSlashes
    rw [List.getLast?_reverse]
    rcases dropWhile_head_cases (fun c => c == '/') p.reverse with h0 | ⟨a, t, h0, hp⟩
    · rw [h0]; simp
    · rw [h0]
      simp only [List.head?_cons, ne_eq, Option.some.injEq]
      intro hcontra
      rw [hcontra] at hp
      simp at hp
  · refine ⟨(p.reverse.takeWhile q).length, hTpos, ?_⟩
    rw [hpy, ← hrep]
    exact hsplit

/-- Counterexample to C7 as stated: on `"http://h/a//"` the parsed path is
`"/a//"`; stripping exactly one trailing slash would give the path `"/a/"`
and the URL `"http://h/a/"`, but the code strips all of them. -/
theorem normalize_url_trailing_counterexample :
    normalize_url "http://h/a//" = some (some "http://h/a") ∧
    ("http://h/a" : String) ≠ "http://h/a/" := by
  constructor
  · rfl
  · decide

/-- Witness for C7: the amended path rewriting at the concrete path
`"/a//"`. -/
theorem pyNormPath_spec_witness :
    (pyNormPath ("/a//" : String).data).getLast? ≠ some '/' ∧
    ∃ n, 0 < n ∧ ("/a//" : String).data =
      pyNormPath ("/a//" : String).data ++ List.replicate n '/' :=
  pyNormPath_spec.2 ("/a//" : String).data (by decide) (by decide)

/-! ## Crawl-loop unfolding lemmas -/

theorem crawlLoop_zero (cfg : CrawlConfig) (s : CrawlState) :
    crawlLoop cfg 0 s = s := rfl

theorem crawlLoop_succ (cfg : CrawlConfig) (n : Nat) (s : CrawlState) :
    crawlLoop cfg (n + 1) s =
      (match s.queue with
       | [] => s
       | c :: rest =>
         if cfg.maxPages ≠ 0 ∧ cfg.maxPages ≤ s.processed then s
         else crawlLoop cfg n (crawlStep cfg c rest s)) := rfl

theorem crawlLoop_nil (cfg : CrawlConfig) (n : Nat) (s : CrawlState)
    (hq : s.queue = []) : crawlLoop cfg (n + 1) s = s := by
  rw [crawlLoop_succ, hq]

theorem crawlLoop_cons_stop (cfg : CrawlConfig) (n : Nat) (s : CrawlState)
    (c : String) (rest : List String) (hq : s.queue = c :: rest)
    (hguard : cfg.maxPages ≠ 0 ∧ cfg.maxPages ≤ s.processed) :
    crawlLoop cfg (n + 1) s = s := by
  rw [crawlLoop_succ, hq]
  exact if_pos hguard

theorem crawlLoop_cons_go (cfg : CrawlConfig) (n : Nat) (s : CrawlState)
    (c : String) (rest : List String) (hq : s.queue = c :: rest)
    (hguard : ¬(cfg.maxPages ≠ 0 ∧ cfg.maxPages ≤ s.processed)) :
    crawlLoop cfg (n + 1) s = crawlLoop cfg n (crawlStep cfg c rest s) := by
  rw [crawlLoop_succ, hq]
  exact if_neg hguard

theorem crawlStep_of_visited (cfg : CrawlConfig) (c : String) (rest : List String)
    (s : CrawlState) (h : c ∈ s.visited) :
    crawlStep cfg c rest s = { s with queue := rest } := by
  simp [crawlStep, h]

theorem crawlStep_of_fail (cfg : CrawlConfig) (c : String) (rest : List String)
    (s : CrawlState) (h : c ∉ s.visited) (hf : cfg.fetch c = none) :
    crawlStep cfg c rest s = { s with queue := rest, visited := c :: s.visited } := by
  simp [crawlStep, h, hf]

theorem crawlStep_of_ok (cfg : CrawlConfig) (c : String) (rest : List String)
    (s : CrawlState) (body : String) (h : c ∉ s.visited) (hf : cfg.fetch c = some body) :
    crawlStep cfg c rest s =
      { queue := (enqueueLinks cfg.host (cfg.extract body c) s.discovered rest s.enqueuedL).2.1
        discovered := (enqueueLinks cfg.host (cfg.extract body c) s.discovered rest s.enqueuedL).1
        visited := c :: s.visited
        processedL := s.processedL ++ [c]
        savedL := if cfg.matcher c = [] then s.savedL else s.savedL ++ [c]
        enqueuedL := (enqueueLinks cfg.host (cfg.extract body c) s.discovered rest s.enqueuedL).2.2 } := by
  simp [crawlStep, h, hf]

/-! ## Claim C1: behaviour on a failed fetch -/

/-- C1 (amended): when fetching a popped, not-yet-visited URL fails, the
URL is marked visited, the run continues with the remaining frontier, no
MatchRecord is written for it (`savedL` untouched), and `pagesProcessed`
does NOT increment (`processedL` untouched): the `processed += 1` of
crawl.py line 185 sits after the `continue` of the `except` branch
(line 183), so a failure does not count toward `pagesProcessed` or the
page budget. -/
theorem crawl_fetch_failure (cfg : CrawlConfig) (s : CrawlState) (c : String)
    (rest : List String) (fuel : Nat)
    (hq : s.queue = c :: rest)
    (hguard : ¬(cfg.maxPages ≠ 0 ∧ cfg.maxPages ≤ s.processed))
    (hv : c ∉ s.visited)
    (hf : cfg.fetch c = none) :
    crawlLoop cfg (fuel + 1) s =
      crawlLoop cfg fuel { s with queue := rest, visited := c :: s.visited } := by
  rw [crawlLoop_cons_go cfg fuel s c rest hq hguard,
    crawlStep_of_fail cfg c rest s hv hf]

/-- A configuration whose every fetch fails with a `RequestException`. -/
def cfgAllFail : CrawlConfig :=
  ⟨fun _ => [], fun _ => none, fun _ _ => [], "h", 0⟩

/-- Counterexample to C1 as stated: with the single seed
`"http://h/"` and a fetch that fails, the URL is attempted (it ends up
visited) but the final `pagesProcessed` is `0`, not the `1` the claim's
"pagesProcessed still increments" requires. -/
theorem crawl_fetch_failure_counterexample :
    (crawlLoop cfgAllFail 5 (initState "http://h/")).visited = ["http://h/"] ∧
    (crawlLoop cfgAllFail 5 (initState "http://h/")).processed = 0 ∧
    (crawlLoop cfgAllFail 5 (initState "http://h/")).processed ≠ 1 := by
  refine ⟨by decide, by decide, by decide⟩

/-- Witness for C1 (amended) at a concrete failing fetch. -/
theorem crawl_fetch_failure_witness :
    crawlLoop cfgAllFail 1 (initState "http://h/") =
      crawlLoop cfgAllFail 0
        { initState "http://h/" with queue := [], visited := ["http://h/"] } :=
  crawl_fetch_failure cfgAllFail (initState "http://h/") "http://h/" [] 0 rfl
    (by decide) (by decide) rfl

/-! ## Claim C5: the page budget bounds `pagesProcessed` -/

theorem crawlStep_processed_le (cfg : CrawlConfig) (c : String) (rest : List String)
    (s : CrawlState) :
    (crawlStep cfg c rest s).processed ≤ s.processed + 1 := by
  by_cases h : c ∈ s.visited
  · rw [crawlStep_of_visited cfg c rest s h]
    exact Nat.le_succ _
  · cases hf : cfg.fetch c with
    | none =>
      rw [crawlStep_of_fail cfg c rest s h hf]
      exact Nat.le_succ _
    | some body =>
      rw [crawlStep_of_ok cfg c rest s body h hf]
      simp [CrawlState.processed]

theorem crawlLoop_budget (cfg : CrawlConfig) (hN : cfg.maxPages ≠ 0) :
    ∀ fuel s, s.processed ≤ cfg.maxPages →
      (crawlLoop cfg fuel s).processed ≤ cfg.maxPages := by
  intro fuel
  induction fuel with
  | zero => intro s h; exact h
  | succ n ih =>
    intro s h
    cases hq : s.queue with
    | nil => rw [crawlLoop_nil cfg n s hq]; exact h
    | cons c rest =>
      by_cases hguard : cfg.maxPages ≠ 0 ∧ cfg.maxPages ≤ s.processed
      · rw [crawlLoop_cons_stop cfg n s c rest hq hguard]; exact h
      · rw [crawlLoop_cons_go cfg n s c rest hq hguard]
        apply ih
        have hlt : s.processed < cfg.maxPages := by
          rcases Nat.lt_or_ge s.processed cfg.maxPages with h1 | h2
          · exact h1
          · exact absurd ⟨hN, h2⟩ hguard
        calc (crawlStep cfg c rest s).processed
            ≤ s.processed + 1 := crawlStep_processed_le cfg c rest s
          _ ≤ cfg.maxPages := hlt

/-- C5: with a configured page budget `N > 0` (`maxPages ≠ 0`), at every
point during the run — after any number of loop iterations — and hence in
the returned summary, `pagesProcessed ≤ N`. -/
theorem crawl_budget (cfg : CrawlConfig) (seed : String) (fuel : Nat)
    (hN : cfg.maxPages ≠ 0) :
    (crawlLoop cfg fuel (initState seed)).processed ≤ cfg.maxPages :=
  crawlLoop_budget cfg hN fuel (initState seed) (Nat.zero_le _)

/-- A configuration with page budget `1` over a two-page site whose every
page matches. -/
def cfgBudget : CrawlConfig :=
  ⟨fun _ => ["m"], fun _ => some "",
   fun _ base => if base = "http://h/a" then ["http://h/b"] else [], "h", 1⟩

/-- Witness for C5 at a concrete budgeted crawl. -/
theorem crawl_budget_witness :
    cfgBudget.maxPages ≠ 0 ∧
    (crawlLoop cfgBudget 5 (initState "http://h/a")).processed ≤ cfgBudget.maxPages :=
  ⟨by decide, crawl_budget cfgBudget "http://h/a" 5 (by decide)⟩

/-! ## Claim C9: `pagesSaved ≤ pagesProcessed` -/

theorem crawlStep_processed_mono (cfg : CrawlConfig) (c : String)
    (rest : List String) (s : CrawlState) :
    s.processed ≤ (crawlStep cfg c rest s).processed := by
  by_cases h : c ∈ s.visited
  · rw [crawlStep_of_visited cfg c rest s h]
    exact Nat.le_refl _
  · cases hf : cfg.fetch c with
    | none =>
      rw [crawlStep_of_fail cfg c rest s h hf]
      exact Nat.le_refl _
    | some body =>
      rw [crawlStep_of_ok cfg c rest s body h hf]
      simp [CrawlState.processed]

theorem crawlStep_saved_mono (cfg : CrawlConfig) (c : String)
    (rest : List String) (s : CrawlState) :
    s.saved ≤ (crawlStep cfg c rest s).saved := by
  by_cases h : c ∈ s.visited
  · rw [crawlStep_of_visited cfg c rest s h]
    exact Nat.le_refl _
  · cases hf : cfg.fetch c with
    | none =>
      rw [crawlStep_of_fail cfg c rest s h hf]
      exact Nat.le_refl _
    | some body =>
      rw [crawlStep_of_ok cfg c rest s body h hf]
      by_cases hm : cfg.matcher c = []
      · simp [CrawlState.saved, hm]
      · simp [CrawlState.saved, hm]

theorem crawlStep_saved_le (cfg : CrawlConfig) (c : String) (rest : List String)
    (s : CrawlState) (h : s.saved ≤ s.processed) :
    (crawlStep cfg c rest s).saved ≤ (crawlStep cfg c rest s).processed := by
  by_cases hv : c ∈ s.visited
  · rw [crawlStep_of_visited cfg c rest s hv]; exact h
  · cases hf : cfg.fetch c with
    | none => rw [crawlStep_of_fail cfg c rest s hv hf]; exact h
    | some body =>
      rw [crawlStep_of_ok cfg c rest s body hv hf]
      simp only [CrawlState.saved, CrawlState.processed] at h ⊢
      by_cases hm : cfg.matcher c = []
      · simp only [if_pos hm, List.length_append, List.length_cons]
        omega
      · simp only [if_neg hm, List.length_append, List.length_cons]
        omega

theorem crawlLoop_saved_le (cfg : CrawlConfig) :
    ∀ fuel s, s.saved ≤ s.processed →
      (crawlLoop cfg fuel s).saved ≤ (crawlLoop cfg fuel s).processed := by
  intro fuel
  induction fuel with
  | zero => intro s h; exact h
  | succ n ih =>
    intro s h
    cases hq : s.queue with
    | nil => rw [crawlLoop_nil cfg n s hq]; exact h
    | cons c rest =>
      by_cases hguard : cfg.maxPages ≠ 0 ∧ cfg.maxPages ≤ s.processed
      · rw [crawlLoop_cons_stop cfg n s c rest hq hguard]; exact h
      · rw [crawlLoop_cons_go cfg n s c rest hq hguard]
        exact ih _ (crawlStep_saved_le cfg c rest s h)

theorem crawlLoop_processed_mono (cfg : CrawlConfig) :
    ∀ fuel s, s.processed ≤ (crawlLoop cfg fuel s).processed := by
  intro fuel
  induction fuel with
  | zero => intro s; exact Nat.le_refl _
  | succ n ih =>
    intro s
    cases hq : s.queue with
    | nil => rw [crawlLoop_nil cfg n s hq]
    | cons c rest =>
      by_cases hguard : cfg.maxPages ≠ 0 ∧ cfg.maxPages ≤ s.processed
      · rw [crawlLoop_cons_stop cfg n s c rest hq hguard]
      · rw [crawlLoop_cons_go cfg n s c rest hq hguard]
        exact Nat.le_trans (crawlStep_processed_mono cfg c rest s) (ih _)

theorem crawlLoop_saved_mono (cfg : CrawlConfig) :
    ∀ fuel s, s.saved ≤ (crawlLoop cfg fuel s).saved := by
  intro fuel
  induction fuel with
  | zero => intro s; exact Nat.le_refl _
  | succ n ih =>
    intro s
    cases hq : s.queue with
    | nil => rw [crawlLoop_nil cfg n s hq]
    | cons c rest =>
      by_cases hguard : cfg.maxPages ≠ 0 ∧ cfg.maxPages ≤ s.processed
      · rw [crawlLoop_cons_stop cfg n s c rest hq hguard]
      · rw [crawlLoop_cons_go cfg n s c rest hq hguard]
        exact Nat.le_trans (crawlStep_saved_mono cfg c rest s) (ih _)

/-- C9: throughout any crawl run `pagesSaved ≤ pagesProcessed`; both
counters start at `0` and only ever grow as the loop keeps running, and a
step that changes `pagesSaved` is one that increments `pagesProcessed`
by exactly one. -/
theorem crawl_saved_le_processed (cfg : CrawlConfig) (seed : String)
    (fuel fuel2 : Nat) :
    (initState seed).processed = 0 ∧ (initState seed).saved = 0 ∧
    (crawlLoop cfg fuel (initState seed)).saved ≤
      (crawlLoop cfg fuel (initState seed)).processed ∧
    (crawlLoop cfg fuel (initState seed)).processed ≤
      (crawlLoop cfg fuel2 (crawlLoop cfg fuel (initState seed))).processed ∧
    (crawlLoop cfg fuel (initState seed)).saved ≤
      (crawlLoop cfg fuel2 (crawlLoop cfg fuel (initState seed))).saved ∧
    (∀ c rest s, (crawlStep cfg c rest s).saved ≠ s.saved →
      (crawlStep cfg c rest s).processed = s.processed + 1) := by
  refine ⟨rfl, rfl, crawlLoop_saved_le cfg fuel (initState seed) (Nat.le_refl 0),
    crawlLoop_processed_mono cfg fuel2 _, crawlLoop_saved_mono cfg fuel2 _, ?_⟩
  intro c rest s hch
  by_cases hv : c ∈ s.visited
  · rw [crawlStep_of_visited cfg c rest s hv] at hch
    exact absurd rfl hch
  · cases hf : cfg.fetch c with
    | none =>
      rw [crawlStep_of_fail cfg c rest s hv hf] at hch
      exact absurd rfl hch
    | some body =>
      rw [crawlStep_of_ok cfg c rest s body hv hf]
      simp [CrawlState.processed]

/-- Witness for C9 at a concrete crawl and a concrete saving step. -/
theorem crawl_saved_le_processed_witness :
    (crawlLoop cfgBudget 3 (initState "http://h/a")).saved ≤
      (crawlLoop cfgBudget 3 (initState "http://h/a")).processed ∧
    (crawlStep cfgBudget "u" [] (initState "x")).processed =
      (initState "x").processed + 1 :=
  ⟨(crawl_saved_le_processed cfgBudget "http://h/a" 3 0).2.2.1,
   (crawl_saved_le_processed cfgBudget "http://h/a" 3 0).2.2.2.2.2 "u" []
     (initState "x") (by decide)⟩

/-! ## `enqueueLinks` lemmas -/

theorem enqueueLinks_disc_superset (host : String) :
    ∀ cands disc queue enq, ∀ x ∈ disc,
      x ∈ (enqueueLinks host cands disc queue enq).1 := by
  intro cands
  induction cands with
  | nil => intro disc queue enq x hx; simpa [enqueueLinks] using hx
  | cons c cs ih =>
    intro disc queue enq x hx
    by_cases hc : is_same_hostname c host = true ∧ c ∉ disc
    · simp only [enqueueLinks, if_pos hc]
      exact ih _ _ _ x (List.mem_cons_of_mem c hx)
    · simp only [enqueueLinks, if_neg hc]
      exact ih _ _ _ x hx

theorem enqueueLinks_disc_src (host : String) :
    ∀ cands disc queue enq, ∀ x ∈ (enqueueLinks host cands disc queue enq).1,
      x ∈ disc ∨ (x ∈ cands ∧ is_same_hostname x host = true) := by
  intro cands
  induction cands with
  | nil => intro disc queue enq x hx; exact Or.inl (by simpa [enqueueLinks] using hx)
  | cons c cs ih =>
    intro disc queue enq x hx
    by_cases hc : is_same_hostname c host = true ∧ c ∉ disc
    · simp only [enqueueLinks, if_pos hc] at hx
      rcases ih _ _ _ x hx with h | ⟨h1, h2⟩
      · rcases List.mem_cons.mp h with h0 | h0
        · exact Or.inr ⟨by rw [h0]; exact List.mem_cons_self c cs, by rw [h0]; exact hc.1⟩
        · exact Or.inl h0
      · exact Or.inr ⟨List.mem_cons_of_mem c h1, h2⟩
    · simp only [enqueueLinks, if_neg hc] at hx
      rcases ih _ _ _ x hx with h | ⟨h1, h2⟩
      · exact Or.inl h
      · exact Or.inr ⟨List.mem_cons_of_mem c h1, h2⟩

theorem enqueueLinks_covers (host : String) :
    ∀ cands disc queue enq, ∀ x ∈ cands, is_same_hostname x host = true →
      x ∈ (enqueueLinks host cands disc queue enq).1 := by
  intro cands
  induction cands with
  | nil => intro disc queue enq x hx; exact absurd hx (List.not_mem_nil x)
  | cons c cs ih =>
    intro disc queue enq x hx hhost
    by_cases hc : is_same_hostname c host = true ∧ c ∉ disc
    · simp only [enqueueLinks, if_pos hc]
      rcases List.mem_cons.mp hx with h0 | h0
      · exact enqueueLinks_disc_superset host cs _ _ _ x
          (by rw [h0]; exact List.mem_cons_self c disc)
      · exact ih _ _ _ x h0 hhost
    · simp only [enqueueLinks, if_neg hc]
      rcases List.mem_cons.mp hx with h0 | h0
      · subst h0
        have hcd : x ∈ disc := by
          by_contra hnd
          exact hc ⟨hhost, hnd⟩
        exact enqueueLinks_disc_superset host cs _ _ _ x hcd
      · exact ih _ _ _ x h0 hhost

theorem enqueueLinks_queue_src (host : String) :
    ∀ cands disc queue enq, ∀ x ∈ (enqueueLinks host cands disc queue enq).2.1,
      x ∈ queue ∨
        (x ∈ (enqueueLinks host cands disc queue enq).1 ∧ x ∉ disc) := by
  intro cands
  induction cands with
  | nil => intro disc queue enq x hx; exact Or.inl (by simpa [enqueueLinks] using hx)
  | cons c cs ih =>
    intro disc queue enq x hx
    by_cases hc : is_same_hostname c host = true ∧ c ∉ disc
    · simp only [enqueueLinks, if_pos hc] at hx ⊢
      rcases ih _ _ _ x hx with h | ⟨h1, h2⟩
      · rcases List.mem_append.mp h with h0 | h0
        · exact Or.inl h0
        · have hxc : x = c := by simpa using h0
          refine Or.inr ⟨?_, by rw [hxc]; exact hc.2⟩
          exact enqueueLinks_disc_superset host cs _ _ _ x
            (by rw [hxc]; exact List.mem_cons_self c disc)
      · exact Or.inr ⟨h1, fun hd => h2 (List.mem_cons_of_mem c hd)⟩
    · simp only [enqueueLinks, if_neg hc] at hx ⊢
      exact ih _ _ _ x hx

theorem enqueueLinks_disc_nodup (host : String) :
    ∀ cands disc queue enq, disc.Nodup →
      (enqueueLinks host cands disc queue enq).1.Nodup := by
  intro cands
  induction cands with
  | nil => intro disc queue enq h; simpa [enqueueLinks] using h
  | cons c cs ih =>
    intro disc queue enq h
    by_cases hc : is_same_hostname c host = true ∧ c ∉ disc
    · simp only [enqueueLinks, if_pos hc]
      exact ih _ _ _ (List.nodup_cons.mpr ⟨hc.2, h⟩)
    · simp only [enqueueLinks, if_neg hc]
      exact ih _ _ _ h

theorem enqueueLinks_queue_nodup (host : String) :
    ∀ cands disc queue enq, disc.Nodup → queue.Nodup →
      (∀ x ∈ queue, x ∈ disc) →
      (enqueueLinks host cands disc queue enq).2.1.Nodup := by
  intro cands
  induction cands with
  | nil => intro disc queue enq _ h _; simpa [enqueueLinks] using h
  | cons c cs ih =>
    intro disc queue enq hd hq hsub
    by_cases hc : is_same_hostname c host = true ∧ c ∉ disc
    · simp only [enqueueLinks, if_pos hc]
      refine ih _ _ _ (List.nodup_cons.mpr ⟨hc.2, hd⟩) ?_ ?_
      · have hcq : c ∉ queue := fun hmem => hc.2 (hsub c hmem)
        simp [List.nodup_append, hq, hcq]
      · intro x hx
        rcases List.mem_append.mp hx with h0 | h0
        · exact List.mem_cons_of_mem c (hsub x h0)
        · have : x = c := by simpa using h0
          rw [this]; exact List.mem_cons_self c disc
    · simp only [enqueueLinks, if_neg hc]
      exact ih _ _ _ hd hq hsub

theorem enqueueLinks_queue_grows (host : String) :
    ∀ cands disc queue enq, ∀ x ∈ queue,
      x ∈ (enqueueLinks host cands disc queue enq).2.1 := by
  intro cands
  induction cands with
  | nil => intro disc queue enq x hx; simpa [enqueueLinks] using hx
  | cons c cs ih =>
    intro disc queue enq x hx
    by_cases hc : is_same_hostname c host = true ∧ c ∉ disc
    · simp only [enqueueLinks, if_pos hc]
      exact ih _ _ _ x (List.mem_append.mpr (Or.inl hx))
    · simp only [enqueueLinks, if_neg hc]
      exact ih _ _ _ x hx

theorem enqueueLinks_disc_cover (host : String) :
    ∀ cands disc queue enq, ∀ x ∈ (enqueueLinks host cands disc queue enq).1,
      x ∈ disc ∨ x ∈ (enqueueLinks host cands disc queue enq).2.1 := by
  intro cands
  induction cands with
  | nil => intro disc queue enq x hx; exact Or.inl (by simpa [enqueueLinks] using hx)
  | cons c cs ih =>
    intro disc queue enq x hx
    by_cases hc : is_same_hostname c host = true ∧ c ∉ disc
    · simp only [enqueueLinks, if_pos hc] at hx ⊢
      rcases ih _ _ _ x hx with h | h
      · rcases List.mem_cons.mp h with h0 | h0
        · refine Or.inr ?_
          subst h0
          exact enqueueLinks_queue_grows host cs _ _ _ x
            (List.mem_append.mpr (Or.inr (List.mem_singleton.mpr rfl)))
        · exact Or.inl h0
      · exact Or.inr h
    · simp only [enqueueLinks, if_neg hc] at hx ⊢
      exact ih _ _ _ x hx

theorem enqueueLinks_length (host : String) :
    ∀ cands disc queue enq,
      (enqueueLinks host cands disc queue enq).1.length + queue.length =
        disc.length + (enqueueLinks host cands disc queue enq).2.1.length := by
  intro cands
  induction cands with
  | nil => intro disc queue enq; simp [enqueueLinks, Nat.add_comm]
  | cons c cs ih =>
    intro disc queue enq
    by_cases hc : is_same_hostname c host = true ∧ c ∉ disc
    · simp only [enqueueLinks, if_pos hc]
      have := ih (c :: disc) (queue ++ [c]) (enq ++ [c])
      simp only [List.length_cons, List.length_append, List.length_singleton,
        List.length_nil] at this ⊢
      omega
    · simp only [enqueueLinks, if_neg hc]
      exact ih _ _ _

theorem enqueueLinks_enq_iff (host : String) :
    ∀ cands disc queue enq, (∀ x, x ∈ enq ↔ x ∈ disc) →
      ∀ x, x ∈ (enqueueLinks host cands disc queue enq).2.2 ↔
        x ∈ (enqueueLinks host cands disc queue enq).1 := by
  intro cands
  induction cands with
  | nil =>
    intro disc queue enq h x
    simpa [enqueueLinks] using h x
  | cons c cs ih =>
    intro disc queue enq h x
    by_cases hc : is_same_hostname c host = true ∧ c ∉ disc
    · simp only [enqueueLinks, if_pos hc]
      refine ih _ _ _ ?_ x
      intro y
      constructor
      · intro hy
        rcases List.mem_append.mp hy with h0 | h0
        · exact List.mem_cons_of_mem c ((h y).mp h0)
        · have : y = c := by simpa using h0
          rw [this]; exact List.mem_cons_self c disc
      · intro hy
        rcases List.mem_cons.mp hy with h0 | h0
        · rw [h0]; exact List.mem_append.mpr (Or.inr (List.mem_singleton.mpr rfl))
        · exact List.mem_append.mpr (Or.inl ((h y).mpr h0))
    · simp only [enqueueLinks, if_neg hc]
      exact ih _ _ _ h x

theorem enqueueLinks_enq_nodup (host : String) :
    ∀ cands disc queue enq, enq.Nodup → (∀ x, x ∈ enq ↔ x ∈ disc) →
      (enqueueLinks host cands disc queue enq).2.2.Nodup := by
  intro cands
  induction cands with
  | nil => intro disc queue enq h _; simpa [enqueueLinks] using h
  | cons c cs ih =>
    intro disc queue enq hn h
    by_cases hc : is_same_hostname c host = true ∧ c ∉ disc
    · simp only [enqueueLinks, if_pos hc]
      refine ih _ _ _ ?_ ?_
      · have hce : c ∉ enq := fun hmem => hc.2 ((h c).mp hmem)
        simp [List.nodup_append, hn, hce]
      · intro y
        constructor
        · intro hy
          rcases List.mem_append.mp hy with h0 | h0
          · exact List.mem_cons_of_mem c ((h y).mp h0)
          · have : y = c := by simpa using h0
            rw [this]; exact List.mem_cons_self c disc
        · intro hy
          rcases List.mem_cons.mp hy with h0 | h0
          · rw [h0]; exact List.mem_append.mpr (Or.inr (List.mem_singleton.mpr rfl))
          · exact List.mem_append.mpr (Or.inl ((h y).mpr h0))
    · simp only [enqueueLinks, if_neg hc]
      exact ih _ _ _ hn h

/-! ## Claim C3: enqueue-at-most-once and the DiscoveredSet -/

/-- The dedup invariant of `discovered` and the enqueue history: the list of
URLs ever enqueued has no duplicates and has exactly the members of the
DiscoveredSet. -/
def InvDisc (s : CrawlState) : Prop :=
  s.enqueuedL.Nodup ∧ (∀ x, x ∈ s.enqueuedL ↔ x ∈ s.discovered)

theorem crawlStep_invDisc (cfg : CrawlConfig) (c : String) (rest : List String)
    (s : CrawlState) (h : InvDisc s) : InvDisc (crawlStep cfg c rest s) := by
  obtain ⟨hn, hiff⟩ := h
  by_cases hv : c ∈ s.visited
  · rw [crawlStep_of_visited cfg c rest s hv]
    exact ⟨hn, hiff⟩
  · cases hf : cfg.fetch c with
    | none =>
      rw [crawlStep_of_fail cfg c rest s hv hf]
      exact ⟨hn, hiff⟩
    | some body =>
      rw [crawlStep_of_ok cfg c rest s body hv hf]
      exact ⟨enqueueLinks_enq_nodup cfg.host _ _ _ _ hn hiff,
        enqueueLinks_enq_iff cfg.host _ _ _ _ hiff⟩

theorem crawlLoop_invDisc (cfg : CrawlConfig) :
    ∀ fuel s, InvDisc s → InvDisc (crawlLoop cfg fuel s) := by
  intro fuel
  induction fuel with
  | zero => intro s h; exact h
  | succ n ih =>
    intro s h
    cases hq : s.queue with
    | nil => rw [crawlLoop_nil cfg n s hq]; exact h
    | cons c rest =>
      by_cases hguard : cfg.maxPages ≠ 0 ∧ cfg.maxPages ≤ s.processed
      · rw [crawlLoop_cons_stop cfg n s c rest hq hguard]; exact h
      · rw [crawlLoop_cons_go cfg n s c rest hq hguard]
        exact ih _ (crawlStep_invDisc cfg c rest s h)

theorem crawlStep_disc_mono (cfg : CrawlConfig) (c : String) (rest : List String)
    (s : CrawlState) : ∀ x ∈ s.discovered, x ∈ (crawlStep cfg c rest s).discovered := by
  intro x hx
  by_cases hv : c ∈ s.visited
  · rw [crawlStep_of_visited cfg c rest s hv]; exact hx
  · cases hf : cfg.fetch c with
    | none => rw [crawlStep_of_fail cfg c rest s hv hf]; exact hx
    | some body =>
      rw [crawlStep_of_ok cfg c rest s body hv hf]
      exact enqueueLinks_disc_superset cfg.host _ _ _ _ x hx

theorem crawlLoop_disc_mono (cfg : CrawlConfig) :
    ∀ fuel s, ∀ x ∈ s.discovered, x ∈ (crawlLoop cfg fuel s).discovered := by
  intro fuel
  induction fuel with
  | zero => intro s x hx; exact hx
  | succ n ih =>
    intro s x hx
    cases hq : s.queue with
    | nil => rw [crawlLoop_nil cfg n s hq]; exact hx
    | cons c rest =>
      by_cases hguard : cfg.maxPages ≠ 0 ∧ cfg.maxPages ≤ s.processed
      · rw [crawlLoop_cons_stop cfg n s c rest hq hguard]; exact hx
      · rw [crawlLoop_cons_go cfg n s c rest hq hguard]
        exact ih _ x (crawlStep_disc_mono cfg c rest s x hx)

/-- C3: over any crawl run, each normalised URL is put on the Frontier at
most once (the enqueue history `enqueuedL`, seed included, has no
duplicates); everything ever enqueued is in the DiscoveredSet — a
candidate is enqueued only when not yet discovered, and discovery and
enqueueing happen together — the seed is recorded as enqueued, and the
DiscoveredSet never shrinks as the loop keeps running. -/
theorem crawl_dedup (cfg : CrawlConfig) (seed : String) (fuel fuel2 : Nat) :
    (crawlLoop cfg fuel (initState seed)).enqueuedL.Nodup ∧
    (∀ x ∈ (crawlLoop cfg fuel (initState seed)).enqueuedL,
      x ∈ (crawlLoop cfg fuel (initState seed)).discovered) ∧
    seed ∈ (crawlLoop cfg fuel (initState seed)).enqueuedL ∧
    (∀ x ∈ (crawlLoop cfg fuel (initState seed)).discovered,
      x ∈ (crawlLoop cfg fuel2 (crawlLoop cfg fuel (initState seed))).discovered) := by
  have hinit : InvDisc (initState seed) := by
    constructor
    · simp [initState]
    · intro x; simp [initState]
  have hinv := crawlLoop_invDisc cfg fuel (initState seed) hinit
  refine ⟨hinv.1, fun x hx => (hinv.2 x).mp hx, ?_, ?_⟩
  · refine (hinv.2 seed).mpr ?_
    exact crawlLoop_disc_mono cfg fuel (initState seed) seed
      (by simp [initState])
  · exact crawlLoop_disc_mono cfg fuel2 _

/-- Witness for C3 at a concrete crawl. -/
theorem crawl_dedup_witness :
    (crawlLoop cfgBudget 3 (initState "http://h/a")).enqueuedL.Nodup ∧
    "http://h/a" ∈ (crawlLoop cfgBudget 3 (initState "http://h/a")).enqueuedL ∧
    "http://h/a" ∈
      (crawlLoop cfgBudget 1 (crawlLoop cfgBudget 3 (initState "http://h/a"))).discovered :=
  ⟨(crawl_dedup cfgBudget "http://h/a" 3 1).1,
   (crawl_dedup cfgBudget "http://h/a" 3 1).2.2.1,
   (crawl_dedup cfgBudget "http://h/a" 3 1).2.2.2 "http://h/a" (by decide)⟩

/-! ## Claim C6: persistence depends only on the URL -/

/-- The persistence invariant: a URL is on the saved list (has a
MatchRecord) exactly when it was processed and its URL matched the
pattern. -/
def SavedIffMatched (cfg : CrawlConfig) (s : CrawlState) : Prop :=
  ∀ u, u ∈ s.savedL ↔ (u ∈ s.processedL ∧ cfg.matcher u ≠ [])

theorem crawlStep_savedIff (cfg : CrawlConfig) (c : String) (rest : List String)
    (s : CrawlState) (h : SavedIffMatched cfg s) :
    SavedIffMatched cfg (crawlStep cfg c rest s) := by
  by_cases hv : c ∈ s.visited
  · rw [crawlStep_of_visited cfg c rest s hv]
    exact h
  · cases hf : cfg.fetch c with
    | none =>
      rw [crawlStep_of_fail cfg c rest s hv hf]
      exact h
    | some body =>
      rw [crawlStep_of_ok cfg c rest s body hv hf]
      intro u
      by_cases hm : cfg.matcher c = []
      · simp only [if_pos hm, List.mem_append, List.mem_singleton]
        constructor
        · intro hu
          obtain ⟨hp, hne⟩ := (h u).mp hu
          exact ⟨Or.inl hp, hne⟩
        · rintro ⟨hp | hc, hne⟩
          · exact (h u).mpr ⟨hp, hne⟩
          · rw [hc] at hne; exact absurd hm hne
      · simp only [if_neg hm, List.mem_append, List.mem_singleton]
        constructor
        · rintro (hu | hc)
          · obtain ⟨hp, hne⟩ := (h u).mp hu
            exact ⟨Or.inl hp, hne⟩
          · rw [hc]; exact ⟨Or.inr rfl, hm⟩
        · rintro ⟨hp | hc, hne⟩
          · exact Or.inl ((h u).mpr ⟨hp, hne⟩)
          · exact Or.inr hc

theorem crawlLoop_savedIff (cfg : CrawlConfig) :
    ∀ fuel s, SavedIffMatched cfg s → SavedIffMatched cfg (crawlLoop cfg fuel s) := by
  intro fuel
  induction fuel with
  | zero => intro s h; exact h
  | succ n ih =>
    intro s h
    cases hq : s.queue with
    | nil => rw [crawlLoop_nil cfg n s hq]; exact h
    | cons c rest =>
      by_cases hguard : cfg.maxPages ≠ 0 ∧ cfg.maxPages ≤ s.processed
      · rw [crawlLoop_cons_stop cfg n s c rest hq hguard]; exact h
      · rw [crawlLoop_cons_go cfg n s c rest hq hguard]
        exact ih _ (crawlStep_savedIff cfg c rest s h)

theorem crawl_savedIff (cfg : CrawlConfig) (seed : String) (fuel : Nat) :
    SavedIffMatched cfg (crawlLoop cfg fuel (initState seed)) := by
  refine crawlLoop_savedIff cfg fuel (initState seed) ?_
  intro u
  simp [initState]

/-- C6: the persistence decision depends only on the URL, never on the
fetched body.  For two runs whose fetch oracles succeed on exactly the
same URLs but may return different bodies (`fetch2` below), any URL
processed in both runs is persisted in one run iff it is persisted in the
other; and a URL the pattern does not match is never persisted in any
run, whatever its body contains. -/
theorem crawl_match_on_url_only (cfg : CrawlConfig) (fetch2 : String → Option String)
    (seed u : String) (fuel1 fuel2 : Nat)
    (hsucc : ∀ w, (cfg.fetch w).isSome = (fetch2 w).isSome) :
    (u ∈ (crawlLoop cfg fuel1 (initState seed)).processedL →
      u ∈ (crawlLoop { cfg with fetch := fetch2 } fuel2 (initState seed)).processedL →
      (u ∈ (crawlLoop cfg fuel1 (initState seed)).savedL ↔
        u ∈ (crawlLoop { cfg with fetch := fetch2 } fuel2 (initState seed)).savedL)) ∧
    (cfg.matcher u = [] → u ∉ (crawlLoop cfg fuel1 (initState seed)).savedL) := by
  constructor
  · intro hp1 hp2
    have h1 := crawl_savedIff cfg seed fuel1 u
    have h2 := crawl_savedIff { cfg with fetch := fetch2 } seed fuel2 u
    rw [h1, h2]
    constructor
    · rintro ⟨_, hne⟩; exact ⟨hp2, hne⟩
    · rintro ⟨_, hne⟩; exact ⟨hp1, hne⟩
  · intro hm hu
    obtain ⟨_, hne⟩ := (crawl_savedIff cfg seed fuel1 u).mp hu
    exact hne hm

/-- A two-run configuration for C6: every page's body is `"PATTERN"`, the
matcher matches only the seed's URL. -/
def cfgBodyA : CrawlConfig :=
  ⟨fun u => if u = "http://h/a" then ["a"] else [],
   fun _ => some "PATTERN", fun _ _ => [], "h", 0⟩

/-- Witness for C6: two runs over the same URLs whose bodies differ
(`"PATTERN"` vs `""`); persistence agrees on the common processed URL, and
a URL the pattern does not match is never persisted although its body
contains the pattern text. -/
theorem crawl_match_on_url_only_witness :
    (("http://h/a" ∈ (crawlLoop cfgBodyA 2 (initState "http://h/a")).savedL) ↔
      ("http://h/a" ∈
        (crawlLoop { cfgBodyA with fetch := fun _ => some "" } 2
          (initState "http://h/a")).savedL)) ∧
    "http://h/x" ∉ (crawlLoop cfgBodyA 2 (initState "http://h/a")).savedL :=
  ⟨(crawl_match_on_url_only cfgBodyA (fun _ => some "") "http://h/a" "http://h/a" 2 2
      (fun _ => rfl)).1 (by decide) (by decide),
   (crawl_match_on_url_only cfgBodyA (fun _ => some "") "http://h/a" "http://h/x" 2 2
      (fun _ => rfl)).2 (by decide)⟩

/-! ## Claim C2: termination and completeness of the crawl

The link graph induced by a configuration: `linksOf cfg u` is the candidate
list the crawler would extract from `u`'s page, and `Reaches cfg seed` is
the set of URLs reachable from the seed along in-scope links — the seed
itself, plus, inductively, every in-scope candidate extracted from a
reachable page. -/

/-- The candidates extracted from the page at `u` (empty when the fetch
fails, since the crawler then extracts nothing). -/
def linksOf (cfg : CrawlConfig) (u : String) : List String :=
  match cfg.fetch u with
  | some body => cfg.extract body u
  | none => []

/-- Reachability from the seed along in-scope links. -/
inductive Reaches (cfg : CrawlConfig) (seed : String) : String → Prop where
  | base : Reaches cfg seed seed
  | step {u v : String} : Reaches cfg seed u → v ∈ linksOf cfg u →
      is_same_hostname v cfg.host = true → Reaches cfg seed v

/-- The breadth-first-search invariant of the crawl loop (for a run whose
fetches all succeed): the discovered set is a duplicate-free set of
reachable URLs split between the visited set and the queue, the queue is
duplicate-free and disjoint from visited, every link out of a visited page
is already discovered, and the processed history is exactly the visited
set, without duplicates. -/
structure BfsInv (cfg : CrawlConfig) (seed : String) (s : CrawlState) : Prop where
  disc_nodup : s.discovered.Nodup
  disc_reach : ∀ u ∈ s.discovered, Reaches cfg seed u
  seed_disc : seed ∈ s.discovered
  queue_disc : ∀ u ∈ s.queue, u ∈ s.discovered
  vis_disc : ∀ u ∈ s.visited, u ∈ s.discovered
  queue_nodup : s.queue.Nodup
  queue_vis : ∀ u ∈ s.queue, u ∉ s.visited
  disc_split : ∀ u ∈ s.discovered, u ∈ s.visited ∨ u ∈ s.queue
  closed : ∀ u ∈ s.visited, ∀ v, v ∈ linksOf cfg u →
    is_same_hostname v cfg.host = true → v ∈ s.discovered
  proc_iff : ∀ u, u ∈ s.processedL ↔ u ∈ s.visited
  proc_nodup : s.processedL.Nodup

theorem crawlStep_bfsInv (cfg : CrawlConfig) (seed : String) (c : String)
    (rest : List String) (s : CrawlState)
    (hq : s.queue = c :: rest)
    (hfetch : ∀ u, (cfg.fetch u).isSome = true)
    (hinv : BfsInv cfg seed s) :
    BfsInv cfg seed (crawlStep cfg c rest s) := by
  have hcq : c ∈ s.queue := by rw [hq]; exact List.mem_cons_self c rest
  have hcv : c ∉ s.visited := hinv.queue_vis c hcq
  have hcd : c ∈ s.discovered := hinv.queue_disc c hcq
  cases hfc : cfg.fetch c with
  | none =>
    have hcontra := hfetch c
    rw [hfc] at hcontra
    simp at hcontra
  | some body =>
    have hlinks : cfg.extract body c = linksOf cfg c := by
      simp [linksOf, hfc]
    have hrestq : ∀ u ∈ rest, u ∈ s.queue := by
      intro u hu; rw [hq]; exact List.mem_cons_of_mem c hu
    have hrest_nodup : rest.Nodup := by
      have := hinv.queue_nodup
      rw [hq] at this
      exact (List.nodup_cons.mp this).2
    have hcrest : c ∉ rest := by
      have := hinv.queue_nodup
      rw [hq] at this
      exact (List.nodup_cons.mp this).1
    rw [crawlStep_of_ok cfg c rest s body hcv hfc]
    constructor
    case disc_nodup =>
      exact enqueueLinks_disc_nodup cfg.host _ _ _ _ hinv.disc_nodup
    case disc_reach =>
      intro x hx
      rcases enqueueLinks_disc_src cfg.host _ _ _ _ x hx with h | ⟨h1, h2⟩
      · exact hinv.disc_reach x h
      · refine Reaches.step (hinv.disc_reach c hcd) ?_ h2
        rw [← hlinks]; exact h1
    case seed_disc =>
      exact enqueueLinks_disc_superset cfg.host _ _ _ _ seed hinv.seed_disc
    case queue_disc =>
      intro x hx
      rcases enqueueLinks_queue_src cfg.host _ _ _ _ x hx with h | ⟨h1, _⟩
      · exact enqueueLinks_disc_superset cfg.host _ _ _ _ x
          (hinv.queue_disc x (hrestq x h))
      · exact h1
    case vis_disc =>
      intro x hx
      rcases List.mem_cons.mp hx with h0 | h0
      · rw [h0]; exact enqueueLinks_disc_superset cfg.host _ _ _ _ c hcd
      · exact enqueueLinks_disc_superset cfg.host _ _ _ _ x (hinv.vis_disc x h0)
    case queue_nodup =>
      refine enqueueLinks_queue_nodup cfg.host _ _ _ _ hinv.disc_nodup hrest_nodup ?_
      intro x hx; exact hinv.queue_disc x (hrestq x hx)
    case queue_vis =>
      intro x hx hmem
      rcases enqueueLinks_queue_src cfg.host _ _ _ _ x hx with h | ⟨_, h2⟩
      · rcases List.mem_cons.mp hmem with h0 | h0
        · rw [h0] at h; exact hcrest h
        · exact hinv.queue_vis x (hrestq x h) h0
      · rcases List.mem_cons.mp hmem with h0 | h0
        · rw [h0] at h2; exact h2 hcd
        · exact h2 (hinv.vis_disc x h0)
    case disc_split =>
      intro x hx
      rcases enqueueLinks_disc_cover cfg.host _ _ _ _ x hx with h | h
      · rcases hinv.disc_split x h with h0 | h0
        · exact Or.inl (List.mem_cons_of_mem c h0)
        · rw [hq] at h0
          rcases List.mem_cons.mp h0 with h1 | h1
          · exact Or.inl (by rw [h1]; exact List.mem_cons_self c s.visited)
          · exact Or.inr (enqueueLinks_queue_grows cfg.host _ _ _ _ x h1)
      · exact Or.inr h
    case closed =>
      intro u hu v hv hhost
      rcases List.mem_cons.mp hu with h0 | h0
      · rw [h0] at hv
        rw [← hlinks] at hv
        exact enqueueLinks_covers cfg.host _ _ _ _ v hv hhost
      · exact enqueueLinks_disc_superset cfg.host _ _ _ _ v
          (hinv.closed u h0 v hv hhost)
    case proc_iff =>
      intro u
      rw [List.mem_append, List.mem_singleton, List.mem_cons, hinv.proc_iff u]
      constructor
      · rintro (h | h)
        · exact Or.inr h
        · exact Or.inl h
      · rintro (h | h)
        · exact Or.inr h
        · exact Or.inl h
    case proc_nodup =>
      have hcp : c ∉ s.processedL := fun hmem => hcv ((hinv.proc_iff c).mp hmem)
      simp [List.nodup_append, hinv.proc_nodup, hcp]

theorem enqueueLinks_queue_ext (host : String) :
    ∀ cands disc queue enq,
      ∃ t, (enqueueLinks host cands disc queue enq).2.1 = queue ++ t := by
  intro cands
  induction cands with
  | nil => intro disc queue enq; exact ⟨[], by simp [enqueueLinks]⟩
  | cons c cs ih =>
    intro disc queue enq
    by_cases hc : is_same_hostname c host = true ∧ c ∉ disc
    · simp only [enqueueLinks, if_pos hc]
      obtain ⟨t, ht⟩ := ih (c :: disc) (queue ++ [c]) (enq ++ [c])
      exact ⟨c :: t, by rw [ht]; simp⟩
    · simp only [enqueueLinks, if_neg hc]
      exact ih _ _ _

/-- The termination measure of the loop: how many reachable URLs are still
undiscovered, plus the queue length.  Every loop iteration decreases it by
exactly one. -/
def bfsMeasure (R : List String) (s : CrawlState) : Nat :=
  (R.length - s.discovered.length) + s.queue.length

theorem crawlStep_bfsMeasure (cfg : CrawlConfig) (seed : String) (c : String)
    (rest : List String) (s : CrawlState) (R : List String)
    (hq : s.queue = c :: rest)
    (hfetch : ∀ u, (cfg.fetch u).isSome = true)
    (hinv : BfsInv cfg seed s)
    (hR : ∀ v, Reaches cfg seed v ↔ v ∈ R) :
    bfsMeasure R (crawlStep cfg c rest s) + 1 = bfsMeasure R s := by
  have hcq : c ∈ s.queue := by rw [hq]; exact List.mem_cons_self c rest
  have hcv : c ∉ s.visited := hinv.queue_vis c hcq
  cases hfc : cfg.fetch c with
  | none =>
    have hcontra := hfetch c
    rw [hfc] at hcontra
    simp at hcontra
  | some body =>
    rw [crawlStep_of_ok cfg c rest s body hcv hfc]
    have hstep := crawlStep_bfsInv cfg seed c rest s hq hfetch hinv
    rw [crawlStep_of_ok cfg c rest s body hcv hfc] at hstep
    have hboundR : (enqueueLinks cfg.host (cfg.extract body c) s.discovered rest
        s.enqueuedL).1.length ≤ R.length := by
      refine List.Subperm.length_le ?_
      refine List.subperm_of_subset hstep.disc_nodup ?_
      intro x hx
      exact (hR x).mp (hstep.disc_reach x hx)
    have hlen := enqueueLinks_length cfg.host (cfg.extract body c) s.discovered rest
      s.enqueuedL
    obtain ⟨t, ht⟩ := enqueueLinks_queue_ext cfg.host (cfg.extract body c)
      s.discovered rest s.enqueuedL
    unfold bfsMeasure
    rw [hq]
    simp only [List.length_cons]
    rw [ht] at hlen ⊢
    simp only [List.length_append] at hlen ⊢
    omega

theorem crawlLoop_completes (cfg : CrawlConfig) (seed : String) (R : List String)
    (hbudget : cfg.maxPages = 0)
    (hfetch : ∀ u, (cfg.fetch u).isSome = true)
    (hR : ∀ v, Reaches cfg seed v ↔ v ∈ R) :
    ∀ fuel s, BfsInv cfg seed s → bfsMeasure R s ≤ fuel →
      (crawlLoop cfg fuel s).queue = [] ∧ BfsInv cfg seed (crawlLoop cfg fuel s) := by
  intro fuel
  induction fuel with
  | zero =>
    intro s hinv hm
    refine ⟨?_, hinv⟩
    have : s.queue.length = 0 := by
      unfold bfsMeasure at hm
      omega
    exact List.eq_nil_of_length_eq_zero this
  | succ n ih =>
    intro s hinv hm
    cases hq : s.queue with
    | nil =>
      rw [crawlLoop_nil cfg n s hq]
      exact ⟨hq, hinv⟩
    | cons c rest =>
      have hguard : ¬(cfg.maxPages ≠ 0 ∧ cfg.maxPages ≤ s.processed) := by
        rw [hbudget]; simp
      rw [crawlLoop_cons_go cfg n s c rest hq hguard]
      refine ih _ (crawlStep_bfsInv cfg seed c rest s hq hfetch hinv) ?_
      have := crawlStep_bfsMeasure cfg seed c rest s R hq hfetch hinv hR
      omega

theorem bfs_final_count (cfg : CrawlConfig) (seed : String) (R : List String)
    (hR : ∀ v, Reaches cfg seed v ↔ v ∈ R) (hRnodup : R.Nodup)
    (s : CrawlState) (hinv : BfsInv cfg seed s) (hq : s.queue = []) :
    s.processedL.length = R.length := by
  have vis_all : ∀ v, Reaches cfg seed v → v ∈ s.visited := by
    intro v hv
    induction hv with
    | base =>
      rcases hinv.disc_split seed hinv.seed_disc with h | h
      · exact h
      · rw [hq] at h; exact absurd h (List.not_mem_nil seed)
    | step hu hlink hhost ihu =>
      have hd := hinv.closed _ ihu _ hlink hhost
      rcases hinv.disc_split _ hd with h | h
      · exact h
      · rw [hq] at h; exact absurd h (List.not_mem_nil _)
  have hext : ∀ a, a ∈ s.processedL ↔ a ∈ R := by
    intro a
    constructor
    · intro ha
      exact (hR a).mp (hinv.disc_reach a (hinv.vis_disc a ((hinv.proc_iff a).mp ha)))
    · intro ha
      exact (hinv.proc_iff a).mpr (vis_all a ((hR a).mpr ha))
  exact ((List.perm_ext_iff_of_nodup hinv.proc_nodup hRnodup).mpr hext).length_eq

/-- C2: over a finite, acyclic link graph (`R` enumerates the in-scope
URLs reachable from the seed, without duplicates; some rank function
increases along every in-scope link), with page budget `0` (unbounded) and
every fetch succeeding, the crawl terminates — any fuel of at least
`R.length` iterations empties the frontier — and the returned
`pagesProcessed` equals the number of distinct in-scope normalised URLs
reachable from the seed. -/
theorem crawl_terminates_bfs (cfg : CrawlConfig) (seed : String) (R : List String)
    (fuel : Nat)
    (hbudget : cfg.maxPages = 0)
    (hfetch : ∀ u, (cfg.fetch u).isSome = true)
    (hfin : ∀ v, Reaches cfg seed v ↔ v ∈ R)
    (hnodup : R.Nodup)
    (hacyclic : ∃ rank : String → Nat, ∀ u v, v ∈ linksOf cfg u →
      is_same_hostname v cfg.host = true → rank u < rank v)
    (hfuel : R.length ≤ fuel) :
    (crawlLoop cfg fuel (initState seed)).queue = [] ∧
    (crawlLoop cfg fuel (initState seed)).processed = R.length := by
  have hinit : BfsInv cfg seed (initState seed) := by
    constructor
    case disc_nodup => simp [initState]
    case disc_reach =>
      intro u hu
      have : u = seed := by simpa [initState] using hu
      rw [this]; exact Reaches.base
    case seed_disc => simp [initState]
    case queue_disc => intro u hu; simpa [initState] using hu
    case vis_disc => intro u hu; simp [initState] at hu
    case queue_nodup => simp [initState]
    case queue_vis => intro u _ hmem; simp [initState] at hmem
    case disc_split =>
      intro u hu
      exact Or.inr (by simpa [initState] using hu)
    case closed => intro u hu; simp [initState] at hu
    case proc_iff => intro u; simp [initState]
    case proc_nodup => simp [initState]
  have hseedR : seed ∈ R := (hfin seed).mp Reaches.base
  have hRpos : 1 ≤ R.length := by
    cases R with
    | nil => exact absurd hseedR (List.not_mem_nil seed)
    | cons a t => simp
  have hminit : bfsMeasure R (initState seed) ≤ fuel := by
    unfold bfsMeasure
    simp only [initState, List.length_cons, List.length_nil]
    omega
  obtain ⟨hempty, hfinalinv⟩ :=
    crawlLoop_completes cfg seed R hbudget hfetch hfin fuel (initState seed)
      hinit hminit
  exact ⟨hempty,
    bfs_final_count cfg seed R hfin hnodup _ hfinalinv hempty⟩

/-- A two-page site: the seed `http://h/a` links to `http://h/b`, which
links nowhere; every fetch succeeds. -/
def cfgTwo : CrawlConfig :=
  ⟨fun _ => [], fun _ => some "",
   fun _ base => if base = "http://h/a" then ["http://h/b"] else [], "h", 0⟩

theorem reaches_cfgTwo (v : String) :
    Reaches cfgTwo "http://h/a" v ↔ v ∈ ["http://h/a", "http://h/b"] := by
  constructor
  · intro h
    induction h with
    | base => simp
    | step hu hlink hhost ihu =>
      rename_i u' v'
      rcases List.mem_cons.mp ihu with h0 | h0
      · rw [h0] at hlink
        have heq : linksOf cfgTwo "http://h/a" = ["http://h/b"] := by decide
        rw [heq] at hlink
        have : v' = "http://h/b" := by simpa using hlink
        simp [this]
      · have hub : u' = "http://h/b" := by simpa using h0
        rw [hub] at hlink
        have heq : linksOf cfgTwo "http://h/b" = [] := by decide
        rw [heq] at hlink
        exact absurd hlink (List.not_mem_nil v')
  · intro h
    rcases List.mem_cons.mp h with h0 | h0
    · rw [h0]; exact Reaches.base
    · have : v = "http://h/b" := by simpa using h0
      rw [this]
      exact Reaches.step Reaches.base (by decide) (by decide)

/-- Witness for C2: the two-page site is crawled to completion within two
iterations; the frontier empties and `pagesProcessed = 2`, the number of
reachable in-scope URLs. -/
theorem crawl_terminates_bfs_witness :
    (∀ v, Reaches cfgTwo "http://h/a" v ↔ v ∈ ["http://h/a", "http://h/b"]) ∧
    (crawlLoop cfgTwo 2 (initState "http://h/a")).queue = [] ∧
    (crawlLoop cfgTwo 2 (initState "http://h/a")).processed = 2 := by
  have hmain := crawl_terminates_bfs cfgTwo "http://h/a"
    ["http://h/a", "http://h/b"] 2 rfl (fun _ => rfl) reaches_cfgTwo (by decide)
    ⟨fun u => if u = "http://h/b" then 1 else 0, ?_⟩ (by decide)
  · exact ⟨reaches_cfgTwo, hmain.1, hmain.2⟩
  · intro u v hlink hhost
    by_cases hu : u = "http://h/a"
    · have heq : linksOf cfgTwo u = ["http://h/b"] := by rw [hu]; rfl
      rw [heq] at hlink
      have hv : v = "http://h/b" := by simpa using hlink
      rw [hu, hv]
      decide
    · have heq : linksOf cfgTwo u = [] := by
        simp [linksOf, cfgTwo, hu]
      rw [heq] at hlink
      exact absurd hlink (List.not_mem_nil v)

/-! ## Claim C4: idempotence of `_normalize_url`

`_normalize_url` is not idempotent (counterexample below: stripping the
trailing slashes of `"http://h//"` empties the path, and the empty path is
re-serialised without its leading `/`, which the next parse then turns
into `/`).  The amended claim proves idempotence whenever the normalised
path (i) is non-empty, (ii) does not expose a `';'` in its final segment,
and (iii) does not begin with `//` while the netloc is empty. -/

/-- The inner rewriting of `urlunsplit`
(`if url and url[:1] != '/': url = '/' + url`), applied when the
`//`-authority is re-attached. -/
def innerPath (pth : List Char) : List Char :=
  if pth ≠ [] ∧ pth.take 1 ≠ ['/'] then '/' :: pth else pth

/-- The `?`-part `urlunsplit` appends for a non-empty query. -/
def queryPart (q : List Char) : List Char := if q ≠ [] then '?' :: q else []

/-- `noLateSemi p` holds when re-parsing would not split params off `p`:
no `';'` at all, or a `';'` only before the last `'/'` (`_splitparams`
searches from `rfind('/')`). -/
def noLateSemi (p : List Char) : Bool :=
  if ';' ∈ p then
    if '/' ∈ p then
      match splitLast '/' p with
      | some pr => decide (';' ∉ pr.2)
      | none => false
    else false
  else true

theorem takeWhile_append_stop (p : Char → Bool) :
    ∀ l₁ l₂ : List Char, (∀ x ∈ l₁, p x = true) →
      (l₂ = [] ∨ ∃ a t, l₂ = a :: t ∧ p a = false) →
      (l₁ ++ l₂).takeWhile p = l₁ ∧ (l₁ ++ l₂).dropWhile p = l₂ := by
  intro l₁
  induction l₁ with
  | nil =>
    intro l₂ _ h2
    rcases h2 with h | ⟨a, t, ha, hp⟩
    · simp [h]
    · rw [ha]
      simp only [List.nil_append]
      exact ⟨List.takeWhile_cons_of_neg (by simp [hp]), List.dropWhile_cons_of_neg (by simp [hp])⟩
  | cons x xs ih =>
    intro l₂ h1 h2
    have hx : p x = true := h1 x (List.mem_cons_self x xs)
    have hxs : ∀ y ∈ xs, p y = true := fun y hy => h1 y (List.mem_cons_of_mem x hy)
    obtain ⟨iht, ihd⟩ := ih l₂ hxs h2
    constructor
    · rw [List.cons_append, List.takeWhile_cons_of_pos hx, iht]
    · rw [List.cons_append, List.dropWhile_cons_of_pos hx, ihd]

theorem splitLast_append (c : Char) (l₁ l₂ : List Char) (h : c ∉ l₂) :
    splitLast c (l₁ ++ c :: l₂) = some (l₁, l₂) := by
  unfold splitLast
  have hrev : (l₁ ++ c :: l₂).reverse = l₂.reverse ++ c :: l₁.reverse := by
    simp
  rw [hrev, splitOnce_append_of_not_mem c l₂.reverse l₁.reverse
    (fun hm => h (List.mem_reverse.mp hm))]
  simp

theorem splitLast_eq_some (c : Char) (l pre seg : List Char)
    (h : splitLast c l = some (pre, seg)) : l = pre ++ c :: seg ∧ c ∉ seg := by
  unfold splitLast at h
  cases hr : splitOnce c l.reverse with
  | none => rw [hr] at h; simp at h
  | some pr =>
    obtain ⟨rpost, rpre⟩ := pr
    rw [hr] at h
    simp only [Option.some.injEq, Prod.mk.injEq] at h
    obtain ⟨h1, h2⟩ := h
    obtain ⟨hdec, hnm⟩ := splitOnce_eq_some c l.reverse rpost rpre hr
    constructor
    · have hl : l = (rpost ++ c :: rpre).reverse := by
        rw [← hdec, List.reverse_reverse]
      rw [hl, ← h1, ← h2]
      simp
    · rw [← h2]
      intro hm
      exact hnm (List.mem_reverse.mp hm)

theorem splitparams_noLate (pth : List Char) (h : noLateSemi pth = true)
    (hsemi : ';' ∈ pth) : splitparamsL pth = (pth, []) := by
  unfold noLateSemi at h
  rw [if_pos hsemi] at h
  by_cases hslash : '/' ∈ pth
  · rw [if_pos hslash] at h
    cases hsl : splitLast '/' pth with
    | none => rw [hsl] at h; simp at h
    | some pr =>
      obtain ⟨pre, seg⟩ := pr
      rw [hsl] at h
      have hns : ';' ∉ seg := of_decide_eq_true h
      unfold splitparamsL
      rw [if_pos hslash, hsl]
      have hnone := splitOnce_eq_none_of_not_mem ';' seg hns
      simp [hnone]
  · rw [if_neg hslash] at h
    simp at h

theorem noLateSemi_cons_slash (pth : List Char) (h : noLateSemi pth = true) :
    noLateSemi ('/' :: pth) = true := by
  by_cases hsemi : ';' ∈ pth
  · have hsemi' : (';' : Char) ∈ '/' :: pth := List.mem_cons_of_mem _ hsemi
    unfold noLateSemi at h
    rw [if_pos hsemi] at h
    by_cases hslash : '/' ∈ pth
    · rw [if_pos hslash] at h
      cases hsl : splitLast '/' pth with
      | none => rw [hsl] at h; simp at h
      | some pr =>
        obtain ⟨pre, seg⟩ := pr
        rw [hsl] at h
        have hns : ';' ∉ seg := of_decide_eq_true h
        obtain ⟨hdec, hnseg⟩ := splitLast_eq_some '/' pth pre seg hsl
        unfold noLateSemi
        rw [if_pos hsemi', if_pos (List.mem_cons_self '/' pth)]
        have : ('/' :: pth) = ('/' :: pre) ++ '/' :: seg := by rw [hdec]; simp
        rw [this, splitLast_append '/' ('/' :: pre) seg hnseg]
        simpa using hns
    · rw [if_neg hslash] at h
      simp at h
  · unfold noLateSemi
    by_cases hsemi' : (';' : Char) ∈ '/' :: pth
    · rcases List.mem_cons.mp hsemi' with h0 | h0
      · exact absurd h0.symm (by decide)
      · exact absurd h0 hsemi
    · rw [if_neg hsemi']

theorem pyNormPath_mem (p : List Char) :
    ∀ x ∈ pyNormPath p, x ∈ p ∨ x = '/' := by
  intro x hx
  unfold pyNormPath at hx
  by_cases hp : p = []
  · rw [if_pos hp] at hx
    simp at hx
    exact Or.inr hx
  · rw [if_neg hp] at hx
    by_cases hcond : p ≠ ['/'] ∧ p.getLast? = some '/'
    · rw [if_pos hcond] at hx
      unfold rstripSlashes at hx
      exact Or.inl (List.mem_reverse.mp (mem_of_mem_dropWhile _ (List.mem_reverse.mp hx)))
    · rw [if_neg hcond] at hx
      exact Or.inl hx

theorem pyNormPath_no_trailing (p : List Char) :
    pyNormPath p = ['/'] ∨ (pyNormPath p).getLast? ≠ some '/' := by
  unfold pyNormPath
  by_cases hp : p = []
  · rw [if_pos hp]
    exact Or.inl rfl
  · rw [if_neg hp]
    by_cases hcond : p ≠ ['/'] ∧ p.getLast? = some '/'
    · rw [if_pos hcond]
      refine Or.inr ?_
      unfold rstripSlashes
      rw [List.getLast?_reverse]
      rcases dropWhile_head_cases (fun c => c == '/') p.reverse with h0 | ⟨a, t, h0, hpa⟩
      · rw [h0]; simp
      · rw [h0]
        simp only [List.head?_cons, ne_eq, Option.some.injEq]
        intro hcontra
        rw [hcontra] at hpa
        simp at hpa
    · rw [if_neg hcond]
      by_cases heq : p = ['/']
      · exact Or.inl heq
      · refine Or.inr ?_
        intro hlast
        exact hcond ⟨heq, hlast⟩

theorem innerPath_head (pth : List Char) (h : pth ≠ []) :
    (innerPath pth).take 1 = ['/'] := by
  unfold innerPath
  by_cases hcond : pth ≠ [] ∧ pth.take 1 ≠ ['/']
  · rw [if_pos hcond]
    simp
  · rw [if_neg hcond]
    by_cases h1 : pth.take 1 = ['/']
    · exact h1
    · exact absurd ⟨h, h1⟩ hcond

theorem innerPath_mem (pth : List Char) :
    ∀ x ∈ innerPath pth, x ∈ pth ∨ x = '/' := by
  intro x hx
  unfold innerPath at hx
  by_cases hcond : pth ≠ [] ∧ pth.take 1 ≠ ['/']
  · rw [if_pos hcond] at hx
    rcases List.mem_cons.mp hx with h0 | h0
    · exact Or.inr h0
    · exact Or.inl h0
  · rw [if_neg hcond] at hx
    exact Or.inl hx

theorem splitOnce_pre_subset (c : Char) (l a b : List Char)
    (h : splitOnce c l = some (a, b)) : (∀ x ∈ a, x ∈ l) ∧ (∀ x ∈ b, x ∈ l) := by
  obtain ⟨hdec, _⟩ := splitOnce_eq_some c l a b h
  constructor
  · intro x hx
    rw [hdec]
    exact List.mem_append.mpr (Or.inl hx)
  · intro x hx
    rw [hdec]
    exact List.mem_append.mpr (Or.inr (List.mem_cons_of_mem c hx))

theorem schemeSplit_snd_subset (u : List Char) :
    ∀ x ∈ (schemeSplit u).2, x ∈ u := by
  intro x hx
  unfold schemeSplit at hx
  cases hr : splitOnce ':' u with
  | none => rw [hr] at hx; exact hx
  | some pr =>
    obtain ⟨pre, post⟩ := pr
    rw [hr] at hx
    cases pre with
    | nil => exact hx
    | cons b bs =>
      by_cases hcond : b.isAlpha && (b :: bs).all isSchemeChar
      · simp only [if_pos hcond] at hx
        exact (splitOnce_pre_subset ':' u (b :: bs) post hr).2 x hx
      · simp only [if_neg hcond] at hx
        exact hx

theorem netlocSplit_facts (u : List Char) :
    (∀ x ∈ (netlocSplit u).1, isNetlocDelim x = false) ∧
    (∀ x ∈ (netlocSplit u).1, x ∈ u) ∧
    (∀ x ∈ (netlocSplit u).2, x ∈ u) := by
  unfold netlocSplit
  by_cases hcond : u.take 2 = ['/', '/']
  · simp only [if_pos hcond]
    refine ⟨?_, ?_, ?_⟩
    · intro x hx
      have := List.mem_takeWhile_imp hx
      simpa using this
    · intro x hx
      exact List.drop_subset 2 u ((List.takeWhile_sublist _).subset hx)
    · intro x hx
      exact List.drop_subset 2 u ((List.dropWhile_sublist _).subset hx)
  · simp only [if_neg hcond]
    exact ⟨fun x hx => absurd hx (List.not_mem_nil x), fun x hx => absurd hx (List.not_mem_nil x),
      fun x hx => hx⟩

theorem fragSplit_facts (u : List Char) :
    '#' ∉ (fragSplit u).1 ∧ (∀ x ∈ (fragSplit u).1, x ∈ u) ∧
      (∀ x ∈ (fragSplit u).2, x ∈ u) := by
  unfold fragSplit
  cases hr : splitOnce '#' u with
  | none =>
    exact ⟨splitOnce_mem_of_eq_none '#' u hr, fun x hx => hx,
      fun x hx => absurd hx (List.not_mem_nil x)⟩
  | some pr =>
    obtain ⟨a, b⟩ := pr
    obtain ⟨_, hnm⟩ := splitOnce_eq_some '#' u a b hr
    exact ⟨hnm, (splitOnce_pre_subset '#' u a b hr).1, (splitOnce_pre_subset '#' u a b hr).2⟩

theorem querySplit_facts (u : List Char) :
    '?' ∉ (querySplit u).1 ∧ (∀ x ∈ (querySplit u).1, x ∈ u) ∧
      (∀ x ∈ (querySplit u).2, x ∈ u) := by
  unfold querySplit
  cases hr : splitOnce '?' u with
  | none =>
    exact ⟨splitOnce_mem_of_eq_none '?' u hr, fun x hx => hx,
      fun x hx => absurd hx (List.not_mem_nil x)⟩
  | some pr =>
    obtain ⟨a, b⟩ := pr
    obtain ⟨_, hnm⟩ := splitOnce_eq_some '?' u a b hr
    exact ⟨hnm, (splitOnce_pre_subset '?' u a b hr).1, (splitOnce_pre_subset '?' u a b hr).2⟩

theorem urlsplitL_facts (w : List Char) (r : SplitResult) (h : urlsplitL w = some r) :
    (∀ x ∈ r.netloc, isNetlocDelim x = false) ∧
    (∀ x ∈ r.netloc, goodChar x = true) ∧
    ¬(('[' ∈ r.netloc) ≠ (']' ∈ r.netloc)) ∧
    '?' ∉ r.path ∧ '#' ∉ r.path ∧ (∀ x ∈ r.path, goodChar x = true) ∧
    '#' ∉ r.query ∧ (∀ x ∈ r.query, goodChar x = true) := by
  unfold urlsplitL at h
  set url := ((w.dropWhile isC0OrSpace).filter goodChar) with hurl
  have hG : ∀ x ∈ url, goodChar x = true := fun x hx => (List.mem_filter.mp hx).2
  set rest := (schemeSplit url).2 with hrest
  have hrestG : ∀ x ∈ rest, goodChar x = true :=
    fun x hx => hG x (schemeSplit_snd_subset url x hx)
  set nl := netlocSplit rest with hnlv
  obtain ⟨hnl1, hnl2, hnl3⟩ := netlocSplit_facts rest
  rw [← hnlv] at hnl1 hnl2 hnl3
  by_cases hbr : ('[' ∈ nl.1) ≠ (']' ∈ nl.1)
  · rw [if_pos hbr] at h
    exact absurd h (by simp)
  · rw [if_neg hbr] at h
    obtain ⟨hfr1, hfr2, hfr3⟩ := fragSplit_facts nl.2
    obtain ⟨hpq1, hpq2, hpq3⟩ := querySplit_facts (fragSplit nl.2).1
    have hrq : r = ⟨(schemeSplit url).1, nl.1, (querySplit (fragSplit nl.2).1).1,
        (querySplit (fragSplit nl.2).1).2, (fragSplit nl.2).2⟩ := by
      have := h
      simp only [Option.some.injEq] at this
      exact this.symm
    rw [hrq]
    refine ⟨hnl1, ?_, hbr, hpq1, ?_, ?_, ?_, ?_⟩
    · intro x hx
      exact hrestG x (hnl2 x hx)
    · intro hmem
      exact hfr1 (hpq2 '#' hmem)
    · intro x hx
      exact hrestG x (hnl3 x (hfr2 x (hpq2 x hx)))
    · intro hmem
      exact hfr1 (hpq3 '#' hmem)
    · intro x hx
      exact hrestG x (hnl3 x (hfr2 x (hpq3 x hx)))

theorem splitparamsL_subset (u : List Char) :
    ∀ x ∈ (splitparamsL u).1, x ∈ u := by
  intro x hx
  unfold splitparamsL at hx
  by_cases hslash : '/' ∈ u
  · rw [if_pos hslash] at hx
    cases hsl : splitLast '/' u with
    | none => simp only [hsl] at hx; exact hx
    | some pr =>
      obtain ⟨pre, seg⟩ := pr
      simp only [hsl] at hx
      cases hso : splitOnce ';' seg with
      | none => simp only [hso] at hx; exact hx
      | some pr2 =>
        obtain ⟨a, b⟩ := pr2
        simp only [hso] at hx
        obtain ⟨hdec, _⟩ := splitLast_eq_some '/' u pre seg hsl
        rw [hdec]
        rcases List.mem_append.mp hx with h0 | h0
        · exact List.mem_append.mpr (Or.inl h0)
        · rcases List.mem_cons.mp h0 with h1 | h1
          · rw [h1]
            exact List.mem_append.mpr (Or.inr (List.mem_cons_self '/' seg))
          · refine List.mem_append.mpr (Or.inr (List.mem_cons_of_mem '/' ?_))
            exact (splitOnce_pre_subset ';' seg a b hso).1 x h1
  · rw [if_neg hslash] at hx
    cases hso : splitOnce ';' u with
    | none => simp only [hso] at hx; exact hx
    | some pr2 =>
      obtain ⟨a, b⟩ := pr2
      simp only [hso] at hx
      exact (splitOnce_pre_subset ';' u a b hso).1 x hx

theorem urlparseL_facts (w : List Char) (p : ParseResult) (h : urlparseL w = some p) :
    (∀ x ∈ p.netloc, isNetlocDelim x = false) ∧
    (∀ x ∈ p.netloc, goodChar x = true) ∧
    ¬(('[' ∈ p.netloc) ≠ (']' ∈ p.netloc)) ∧
    '?' ∉ p.path ∧ '#' ∉ p.path ∧ (∀ x ∈ p.path, goodChar x = true) ∧
    '#' ∉ p.query ∧ (∀ x ∈ p.query, goodChar x = true) := by
  unfold urlparseL at h
  cases hs : urlsplitL w with
  | none => rw [hs] at h; simp at h
  | some r =>
    rw [hs] at h
    simp only [Option.map_some'] at h
    obtain ⟨f1, f2, f3, f4, f5, f6, f7, f8⟩ := urlsplitL_facts w r hs
    by_cases hcond : r.scheme ∈ usesParams ∧ ';' ∈ r.path
    · rw [if_pos hcond] at h
      injection h with h
      rw [← h]
      refine ⟨f1, f2, f3, ?_, ?_, ?_, f7, f8⟩
      · intro hm; exact f4 (splitparamsL_subset r.path '?' hm)
      · intro hm; exact f5 (splitparamsL_subset r.path '#' hm)
      · intro x hx; exact f6 x (splitparamsL_subset r.path x hx)
    · rw [if_neg hcond] at h
      injection h with h
      rw [← h]
      exact ⟨f1, f2, f3, f4, f5, f6, f7, f8⟩

theorem schemeSplit_exact (b : Char) (bs t : List Char)
    (hcolon : ':' ∉ b :: bs)
    (hba : b.isAlpha = true)
    (hbsc : (b :: bs).all isSchemeChar = true)
    (hblow : lowerL (b :: bs) = b :: bs) :
    schemeSplit ((b :: bs) ++ ':' :: t) = (b :: bs, t) := by
  unfold schemeSplit
  rw [splitOnce_append_of_not_mem ':' (b :: bs) t hcolon]
  simp [hba, hbsc, hblow]

theorem netlocSplit_exact (n t : List Char)
    (hn : ∀ x ∈ n, isNetlocDelim x = false)
    (ht : t = [] ∨ ∃ a t', t = a :: t' ∧ isNetlocDelim a = true) :
    netlocSplit ('/' :: '/' :: (n ++ t)) = (n, t) := by
  unfold netlocSplit
  rw [if_pos (by simp)]
  have hdrop : List.drop 2 ('/' :: '/' :: (n ++ t)) = n ++ t := rfl
  rw [hdrop]
  have ht2 : t = [] ∨ ∃ a t', t = a :: t' ∧ (!isNetlocDelim a) = false := by
    rcases ht with h | ⟨a, t', h1, h2⟩
    · exact Or.inl h
    · exact Or.inr ⟨a, t', h1, by simp [h2]⟩
  obtain ⟨htake, hdropw⟩ := takeWhile_append_stop (fun c => !isNetlocDelim c) n t
    (fun x hx => by simp [hn x hx]) ht2
  rw [htake, hdropw]

theorem fragSplit_none (u : List Char) (h : '#' ∉ u) : fragSplit u = (u, []) := by
  unfold fragSplit
  rw [splitOnce_eq_none_of_not_mem '#' u h]

theorem queryPart_mem (q : List Char) :
    ∀ x ∈ queryPart q, x = '?' ∨ x ∈ q := by
  intro x hx
  unfold queryPart at hx
  by_cases hq : q = []
  · rw [if_neg (by simp [hq])] at hx
    exact absurd hx (List.not_mem_nil x)
  · rw [if_pos hq] at hx
    rcases List.mem_cons.mp hx with h0 | h0
    · exact Or.inl h0
    · exact Or.inr h0

theorem querySplit_append (ip q : List Char) (h : '?' ∉ ip) :
    querySplit (ip ++ queryPart q) = (ip, q) := by
  unfold querySplit queryPart
  by_cases hq : q = []
  · rw [if_neg (by simp [hq])]
    rw [List.append_nil, splitOnce_eq_none_of_not_mem '?' ip h, hq]
  · rw [if_pos hq]
    rw [splitOnce_append_of_not_mem '?' ip q h]

theorem urlunparse_http_shape (s n pth q : List Char)
    (hs : s = "http".data ∨ s = "https".data)
    (hcond : ¬(n = [] ∧ pth.take 2 = ['/', '/'])) :
    urlunparseL s n pth [] q [] =
      s ++ ':' :: '/' :: '/' :: (n ++ innerPath pth ++ queryPart q) := by
  have hsne : s ≠ [] := by
    rcases hs with h | h <;> rw [h] <;> decide
  have hsnet : s ∈ usesNetloc := by
    rcases hs with h | h <;> rw [h] <;> decide
  have houter : n ≠ [] ∨ (s ≠ [] ∧ s ∈ usesNetloc ∧ pth.take 2 ≠ ['/', '/']) := by
    by_cases hn : n = []
    · refine Or.inr ⟨hsne, hsnet, ?_⟩
      intro htake
      exact hcond ⟨hn, htake⟩
    · exact Or.inl hn
  unfold urlunparseL
  rw [if_neg (by simp : ¬([] : List Char) ≠ [])]
  simp only [urlunsplitL, innerPath, queryPart]
  rw [if_neg (by simp : ¬([] : List Char) ≠ [])]
  rw [if_pos houter, if_pos hsne]
  by_cases hq : q = []
  · subst hq
    simp
  · rw [if_pos hq, if_pos hq]
    simp

theorem urlsplit_reassembled (b : Char) (bs n ip q : List Char)
    (hb0 : isC0OrSpace b = false)
    (hbg : ∀ x ∈ b :: bs, goodChar x = true)
    (hbcolon : ':' ∉ b :: bs)
    (hba : b.isAlpha = true)
    (hbsc : (b :: bs).all isSchemeChar = true)
    (hblow : lowerL (b :: bs) = b :: bs)
    (hn1 : ∀ x ∈ n, isNetlocDelim x = false)
    (hn2 : ∀ x ∈ n, goodChar x = true)
    (hnb : ¬(('[' ∈ n) ≠ (']' ∈ n)))
    (hip : ip.take 1 = ['/'])
    (hip1 : '?' ∉ ip) (hip2 : '#' ∉ ip) (hip3 : ∀ x ∈ ip, goodChar x = true)
    (hq1 : '#' ∉ q) (hq2 : ∀ x ∈ q, goodChar x = true) :
    urlsplitL ((b :: bs) ++ ':' :: '/' :: '/' :: (n ++ ip ++ queryPart q)) =
      some ⟨b :: bs, n, ip, q, []⟩ := by
  obtain ⟨ip', hip'⟩ : ∃ ip', ip = '/' :: ip' := by
    cases ip with
    | nil => simp at hip
    | cons a t =>
      have : a = '/' := by simpa using hip
      exact ⟨t, by rw [this]⟩
  set w := (b :: bs) ++ ':' :: '/' :: '/' :: (n ++ ip ++ queryPart q) with hw
  have hwcons : w = b :: (bs ++ ':' :: '/' :: '/' :: (n ++ ip ++ queryPart q)) := by
    rw [hw]; simp
  have hgood : ∀ x ∈ w, goodChar x = true := by
    intro x hx
    rw [hw] at hx
    rcases List.mem_append.mp hx with h | h
    · exact hbg x h
    · rcases List.mem_cons.mp h with h | h
      · rw [h]; decide
      · rcases List.mem_cons.mp h with h | h
        · rw [h]; decide
        · rcases List.mem_cons.mp h with h | h
          · rw [h]; decide
          · rcases List.mem_append.mp h with h | h
            · rcases List.mem_append.mp h with h | h
              · exact hn2 x h
              · exact hip3 x h
            · rcases queryPart_mem q x h with h | h
              · rw [h]; decide
              · exact hq2 x h
  have hdw : w.dropWhile isC0OrSpace = w := by
    rw [hwcons]
    exact List.dropWhile_cons_of_neg (by simp [hb0])
  have hsch : schemeSplit w = (b :: bs, '/' :: '/' :: (n ++ ip ++ queryPart q)) := by
    rw [hw]
    exact schemeSplit_exact b bs _ hbcolon hba hbsc hblow
  have hnl : netlocSplit ('/' :: '/' :: (n ++ ip ++ queryPart q)) =
      (n, ip ++ queryPart q) := by
    have hassoc : n ++ ip ++ queryPart q = n ++ (ip ++ queryPart q) := by simp
    rw [hassoc]
    refine netlocSplit_exact n (ip ++ queryPart q) hn1 ?_
    refine Or.inr ⟨'/', ip' ++ queryPart q, ?_, by decide⟩
    rw [hip']; simp
  have hfr : fragSplit (ip ++ queryPart q) = (ip ++ queryPart q, []) := by
    refine fragSplit_none _ ?_
    intro hm
    rcases List.mem_append.mp hm with h0 | h0
    · exact hip2 h0
    · rcases queryPart_mem q '#' h0 with h1 | h1
      · exact absurd h1 (by decide)
      · exact hq1 h1
  simp only [urlsplitL]
  rw [hdw, List.filter_eq_self.mpr hgood]
  simp only [hsch, hnl]
  rw [if_neg hnb]
  simp only [hfr, querySplit_append ip q hip1]

theorem normalize_url_eq_of_parsed (raw : String) (p : ParseResult)
    (hp : normParsed raw = some p) :
    normalize_url raw =
      if p.scheme ∈ httpSchemes then
        some (some (String.mk (urlunparseL p.scheme p.netloc (pyNormPath p.path) []
          p.query [])))
      else some none := by
  unfold normalize_url
  rw [hp]

/-- C4 (amended): on every URL `u` that `_normalize_url` accepts,
normalisation is idempotent — `normalize(normalize(u)) = normalize(u)` —
provided the normalised path (i) is non-empty (stripping the trailing
slashes of an all-slash path empties it), (ii) has no `';'` at or after
its last `'/'` (re-parsing would split it off as params), and (iii) does
not start with `//` while the netloc is empty (re-parsing would absorb
part of the path into the netloc).  The counterexample theorem shows the
unconditional claim is false. -/
theorem normalize_url_idempotent_amended (u v : String) (p : ParseResult)
    (hp : normParsed u = some p)
    (hn : normalize_url u = some (some v))
    (h1 : pyNormPath p.path ≠ [])
    (h2 : noLateSemi (pyNormPath p.path) = true)
    (h3 : ¬(p.netloc = [] ∧ (pyNormPath p.path).take 2 = ['/', '/'])) :
    normalize_url v = some (some v) := by
  -- identify v and the scheme
  rw [normalize_url_eq_of_parsed u p hp] at hn
  by_cases hsch : p.scheme ∈ httpSchemes
  case neg => rw [if_neg hsch] at hn; simp at hn
  rw [if_pos hsch] at hn
  simp only [Option.some.injEq] at hn
  have hv : v = String.mk (urlunparseL p.scheme p.netloc (pyNormPath p.path) []
      p.query []) := hn.symm
  have hs : p.scheme = "http".data ∨ p.scheme = "https".data := by
    simpa [httpSchemes] using hsch
  -- component facts from the parse of u
  obtain ⟨cl, hcl, hpl⟩ : ∃ cl, urldefragL u.data = some cl ∧ urlparseL cl = some p := by
    unfold normParsed at hp
    cases hdf : urldefragL u.data with
    | none => rw [hdf] at hp; simp at hp
    | some cl0 => rw [hdf] at hp; exact ⟨cl0, rfl, by simpa using hp⟩
  obtain ⟨f1, f2, f3, f4, f5, f6, f7, f8⟩ := urlparseL_facts cl p hpl
  set p' := pyNormPath p.path with hp'v
  have hp'q : '?' ∉ p' := by
    intro hm
    rcases pyNormPath_mem p.path '?' hm with h | h
    · exact f4 h
    · exact absurd h (by decide)
  have hp'h : '#' ∉ p' := by
    intro hm
    rcases pyNormPath_mem p.path '#' hm with h | h
    · exact f5 h
    · exact absurd h (by decide)
  have hp'g : ∀ x ∈ p', goodChar x = true := by
    intro x hx
    rcases pyNormPath_mem p.path x hx with h | h
    · exact f6 x h
    · rw [h]; decide
  set ip := innerPath p' with hipv
  have hipq : '?' ∉ ip := by
    intro hm
    rcases innerPath_mem p' '?' hm with h | h
    · exact hp'q h
    · exact absurd h (by decide)
  have hiph : '#' ∉ ip := by
    intro hm
    rcases innerPath_mem p' '#' hm with h | h
    · exact hp'h h
    · exact absurd h (by decide)
  have hipg : ∀ x ∈ ip, goodChar x = true := by
    intro x hx
    rcases innerPath_mem p' x hx with h | h
    · exact hp'g x h
    · rw [h]; decide
  have hiphead : ip.take 1 = ['/'] := innerPath_head p' h1
  have hipne : ip ≠ [] := by
    intro hnil
    rw [hnil] at hiphead
    simp at hiphead
  -- the scheme as an explicit cons cell with its character facts
  obtain ⟨b, bs, hsbb, hb0, hbg, hbcolon, hba, hbsc, hblow, hshash⟩ :
      ∃ b bs, p.scheme = b :: bs ∧ isC0OrSpace b = false ∧
        (∀ x ∈ b :: bs, goodChar x = true) ∧ ':' ∉ b :: bs ∧ b.isAlpha = true ∧
        (b :: bs).all isSchemeChar = true ∧ lowerL (b :: bs) = b :: bs ∧
        '#' ∉ b :: bs := by
    rcases hs with h | h
    · exact ⟨'h', "ttp".data, by rw [h], by decide, by decide, by decide,
        by decide, by decide, by decide, by decide⟩
    · exact ⟨'h', "ttps".data, by rw [h], by decide, by decide, by decide,
        by decide, by decide, by decide, by decide⟩
  -- the serialised shape of v
  have hshape : v.data =
      (b :: bs) ++ ':' :: '/' :: '/' :: (p.netloc ++ ip ++ queryPart p.query) := by
    rw [hv]
    show urlunparseL p.scheme p.netloc p' [] p.query [] = _
    rw [urlunparse_http_shape p.scheme p.netloc p' p.query hs h3, hsbb, ← hipv]
  -- v reparses to the same components (with the inner path)
  have hsplit : urlsplitL v.data = some ⟨b :: bs, p.netloc, ip, p.query, []⟩ := by
    rw [hshape]
    exact urlsplit_reassembled b bs p.netloc ip p.query hb0 hbg hbcolon hba hbsc
      hblow f1 f2 f3 hiphead hipq hiph hipg f7 f8
  have hnls : noLateSemi ip = true := by
    rw [hipv]
    unfold innerPath
    by_cases hcond : p' ≠ [] ∧ p'.take 1 ≠ ['/']
    · rw [if_pos hcond]
      exact noLateSemi_cons_slash p' h2
    · rw [if_neg hcond]
      exact h2
  have husep : (b :: bs) ∈ usesParams := by
    rw [← hsbb]
    rcases hs with h | h <;> rw [h] <;> decide
  have hparse : urlparseL v.data = some ⟨b :: bs, p.netloc, ip, [], p.query, []⟩ := by
    unfold urlparseL
    rw [hsplit]
    by_cases hsemi : ';' ∈ ip
    · have hsp := splitparams_noLate ip hnls hsemi
      simp [husep, hsemi, hsp]
    · simp [hsemi]
  -- v defragments to itself
  have hnohash : '#' ∉ v.data := by
    rw [hshape]
    intro hm
    rcases List.mem_append.mp hm with h | h
    · exact hshash h
    · rcases List.mem_cons.mp h with h | h
      · exact absurd h.symm (by decide)
      · rcases List.mem_cons.mp h with h | h
        · exact absurd h.symm (by decide)
        · rcases List.mem_cons.mp h with h | h
          · exact absurd h.symm (by decide)
          · rcases List.mem_append.mp h with h | h
            · rcases List.mem_append.mp h with h | h
              · have := f1 '#' h
                exact absurd this (by decide)
              · exact hiph h
            · rcases queryPart_mem p.query '#' h with h | h
              · exact absurd h (by decide)
              · exact f7 h
  have hdfv : urldefragL v.data = some v.data := by
    unfold urldefragL
    rw [if_neg hnohash]
  have hnp : normParsed v = some ⟨b :: bs, p.netloc, ip, [], p.query, []⟩ := by
    unfold normParsed
    rw [hdfv]
    exact hparse
  -- the second normalisation leaves the path alone
  have higl : ip.getLast? = p'.getLast? := by
    rw [hipv]
    unfold innerPath
    by_cases hcond : p' ≠ [] ∧ p'.take 1 ≠ ['/']
    · rw [if_pos hcond]
      cases hpc : p' with
      | nil => exact absurd hpc hcond.1
      | cons a t => rw [List.getLast?_cons_cons]
    · rw [if_neg hcond]
  have hnormip : pyNormPath ip = ip := by
    simp only [pyNormPath, if_neg hipne]
    by_cases hcnd : ip ≠ ['/'] ∧ ip.getLast? = some '/'
    · exfalso
      rcases pyNormPath_no_trailing p.path with h | h
      · rw [← hp'v] at h
        apply hcnd.1
        rw [hipv, h]
        decide
      · rw [← hp'v] at h
        rw [higl] at hcnd
        exact h hcnd.2
    · rw [if_neg hcnd]
  have h3ip : ¬(p.netloc = [] ∧ ip.take 2 = ['/', '/']) := by
    rintro ⟨hnl, htake⟩
    apply h3
    refine ⟨hnl, ?_⟩
    rw [hipv] at htake
    unfold innerPath at htake
    by_cases hcond : p' ≠ [] ∧ p'.take 1 ≠ ['/']
    · rw [if_pos hcond] at htake
      rw [List.take_succ_cons] at htake
      have : p'.take 1 = ['/'] := by simpa using htake
      exact absurd this hcond.2
    · rw [if_neg hcond] at htake
      exact htake
  have hsip : (b :: bs) = "http".data ∨ (b :: bs) = "https".data := by
    rw [← hsbb]; exact hs
  have hii : innerPath ip = ip := by
    unfold innerPath
    rw [if_neg (fun hc => hc.2 hiphead)]
  have hser : urlunparseL (b :: bs) p.netloc ip [] p.query [] = v.data := by
    rw [urlunparse_http_shape (b :: bs) p.netloc ip p.query hsip h3ip, hshape, hii]
  -- assemble
  rw [normalize_url_eq_of_parsed v ⟨b :: bs, p.netloc, ip, [], p.query, []⟩ hnp]
  have hsch2 : (b :: bs) ∈ httpSchemes := by rw [← hsbb]; exact hsch
  show (if (b :: bs) ∈ httpSchemes then
      some (some (String.mk (urlunparseL (b :: bs) p.netloc (pyNormPath ip) []
        p.query [])))
    else some none) = some (some v)
  rw [if_pos hsch2, hnormip, hser]

/-- Counterexample to C4 as stated: `"http://h//"` is accepted by
`_normalize_url` (result `"http://h"`), but normalising again yields
`"http://h/"`: stripping the trailing slashes of the all-slash path `"//"`
left an empty path, which the serialiser drops and the second parse
re-defaults to `"/"`.  So `normalize(normalize(u)) ≠ normalize(u)`. -/
theorem normalize_url_not_idempotent :
    normalize_url "http://h//" = some (some "http://h") ∧
    normalize_url "http://h" = some (some "http://h/") ∧
    (some (some ("http://h" : String)) : Option (Option String)) ≠
      some (some ("http://h/" : String)) := by
  exact ⟨by decide, by decide, by decide⟩

/-- Witness for C4 (amended) at the concrete URL `"http://h/a/"`. -/
theorem normalize_url_idempotent_amended_witness :
    normalize_url "http://h/a/" = some (some "http://h/a") ∧
    normalize_url "http://h/a" = some (some "http://h/a") := by
  refine ⟨by decide, ?_⟩
  exact normalize_url_idempotent_amended "http://h/a/" "http://h/a"
    ⟨"http".data, "h".data, "/a/".data, [], [], []⟩ (by decide) (by decide)
    (by decide) (by decide) (by decide)
